import Mathlib

/-!
Verification of the BPE engine in `hindi_bpe_tokenizer.py`.

Texts are modelled as lists of Unicode code points (`List Nat`), byte strings
as lists of byte values (`List Nat`, each `< 256`).  Python dictionaries are
modelled as insertion-ordered association lists, which is exactly the
iteration order `max` / `min` observe in the source.
-/

namespace HindiBPE

/-- Character classification oracle abstracting the regex library's Unicode
property tables used by the source pattern: `\p{L}` (letter), `\p{N}`
(numeric) and `\s` (whitespace).  The segmentation theorems below hold for
every classifier, in particular for the tables the Python `regex` module
ships. -/
structure CharClass where
  isLetter : Nat → Bool
  isNum : Nat → Bool
  isSpace : Nat → Bool

/-- Devanagari code point range of the pattern alternative ` ?[ऀ-ॿ]+`. -/
def isDeva (c : Nat) : Bool := decide (0x900 ≤ c) && decide (c ≤ 0x97F)

/-- Bengali code point range of the pattern alternative ` ?[ঀ-৿]+`. -/
def isBeng (c : Nat) : Bool := decide (0x980 ≤ c) && decide (c ≤ 0x9FF)

/-- Character class of the alternative ` ?[^\s\p{L}\p{N}]+`. -/
def isOther (cc : CharClass) (c : Nat) : Bool :=
  !(cc.isSpace c) && !(cc.isLetter c) && !(cc.isNum c)

/-- Whether a list starts with a character of the given class. -/
def headClass (cls : Nat → Bool) : List Nat → Bool
  | [] => false
  | r :: _ => cls r

/-- Matcher for one pattern alternative of the shape ` ?X+` (an optional
single ASCII space, then a longest non-empty run of class `X`), with the
backtracking semantics of the `regex` module: the greedy ` ?` consumes a
leading `0x20` only if a class character follows it; otherwise `X+` is
attempted at the current position.  Returns the match and the rest. -/
def altOptSpace (cls : Nat → Bool) : List Nat → Option (List Nat × List Nat)
  | [] => none
  | c :: rest =>
    if c == 32 && headClass cls rest then
      some (32 :: rest.takeWhile cls, rest.dropWhile cls)
    else if cls c then
      some (List.takeWhile cls (c :: rest), List.dropWhile cls (c :: rest))
    else none

/-- Matcher for the two whitespace alternatives `\s+(?!\S)|\s+`.  The first
one greedily takes the maximal whitespace run and backtracks one character
when a non-whitespace character follows; the second takes the full run. -/
def wsAlt (cc : CharClass) : List Nat → Option (List Nat × List Nat)
  | [] => none
  | c :: rest =>
    if cc.isSpace c then
      let run := List.takeWhile cc.isSpace (c :: rest)
      let rest2 := List.dropWhile cc.isSpace (c :: rest)
      if rest2.isEmpty then some (run, rest2)
      else if 2 ≤ run.length then
        some (run.take (run.length - 1), run.drop (run.length - 1) ++ rest2)
      else some (run, rest2)
    else none

/-- First successful result in a list of attempts (ordered alternation). -/
def firstSome {α : Type} : List (Option α) → Option α
  | [] => none
  | none :: rest => firstSome rest
  | some v :: _ => some v

/-- One attempt of the full source pattern
` ?[ऀ-ॿ]+| ?[ঀ-৿]+| ?\p{L}+| ?\p{N}+| ?[^\s\p{L}\p{N}]+|\s+(?!\S)|\s+`
at the current position: the alternatives are tried in order,
first match wins. -/
def matchAt (cc : CharClass) (s : List Nat) : Option (List Nat × List Nat) :=
  firstSome
    [altOptSpace isDeva s, altOptSpace isBeng s, altOptSpace cc.isLetter s,
      altOptSpace cc.isNum s, altOptSpace (isOther cc) s, wsAlt cc s]

/-- Fuelled model of `re.findall(self.pattern, text)`: repeatedly match at
the current position, collect the matches, skip one character when nothing
matches (which never happens for this pattern).  One unit of fuel is spent
per consumed character, so fuel `s.length` is always enough. -/
def findallF (cc : CharClass) : Nat → List Nat → List (List Nat)
  | 0, _ => []
  | _ + 1, [] => []
  | fuel + 1, c :: rest =>
    match matchAt cc (c :: rest) with
    | some (m, r) => m :: findallF cc fuel r
    | none => findallF cc fuel rest

/-- Model of `re.findall(self.pattern, text)` from the source. -/
def findall (cc : CharClass) (s : List Nat) : List (List Nat) :=
  findallF cc s.length s

/-- UTF-8 encoding of a single code point, modelling Python's
`str.encode("utf-8")` per character (total on `Nat`; Python strings only
contain code points below `0x110000`). -/
def utf8EncodeCp (c : Nat) : List Nat :=
  if c < 0x80 then [c]
  else if c < 0x800 then [0xC0 + c / 0x40, 0x80 + c % 0x40]
  else if c < 0x10000 then
    [0xE0 + c / 0x1000, 0x80 + c / 0x40 % 0x40, 0x80 + c % 0x40]
  else
    [0xF0 + c / 0x40000, 0x80 + c / 0x1000 % 0x40, 0x80 + c / 0x40 % 0x40,
      0x80 + c % 0x40]

/-- UTF-8 encoding of a text, modelling `chunk.encode("utf-8")` /
`list(chunk_bytes)` from the source. -/
def utf8Encode (s : List Nat) : List Nat := s.flatMap utf8EncodeCp

/-- Whether a byte is a UTF-8 continuation byte. -/
def cont (b : Nat) : Bool := decide (0x80 ≤ b) && decide (b < 0xC0)

/-- Validity of the second byte of a three-byte sequence (Python's strict
decoder rejects overlong encodings and surrogates). -/
def b1ok3 (b0 b1 : Nat) : Bool :=
  if b0 == 0xE0 then decide (0xA0 ≤ b1) && decide (b1 < 0xC0)
  else if b0 == 0xED then decide (0x80 ≤ b1) && decide (b1 < 0xA0)
  else cont b1

/-- Validity of the second byte of a four-byte sequence. -/
def b1ok4 (b0 b1 : Nat) : Bool :=
  if b0 == 0xF0 then decide (0x90 ≤ b1) && decide (b1 < 0xC0)
  else if b0 == 0xF4 then decide (0x80 ≤ b1) && decide (b1 < 0x90)
  else cont b1

/-- One step of the UTF-8 decoder: given the first byte and the remaining
bytes, return the decoded code point (or U+FFFD on malformed input) and the
bytes not yet consumed.  Malformed continuation bytes are not consumed, as
in Python's maximal-subpart replacement policy. -/
def utf8Step (b0 : Nat) (rest : List Nat) : Nat × List Nat :=
  if b0 < 0x80 then (b0, rest)
  else if 0xC2 ≤ b0 ∧ b0 < 0xE0 then
    match rest with
    | b1 :: r2 =>
      if cont b1 then ((b0 - 0xC0) * 0x40 + (b1 - 0x80), r2)
      else (0xFFFD, b1 :: r2)
    | [] => (0xFFFD, [])
  else if 0xE0 ≤ b0 ∧ b0 < 0xF0 then
    match rest with
    | b1 :: b2 :: r3 =>
      if b1ok3 b0 b1 && cont b2 then
        ((b0 - 0xE0) * 0x1000 + (b1 - 0x80) * 0x40 + (b2 - 0x80), r3)
      else (0xFFFD, b1 :: b2 :: r3)
    | [b1] => (0xFFFD, [b1])
    | [] => (0xFFFD, [])
  else if 0xF0 ≤ b0 ∧ b0 ≤ 0xF4 then
    match rest with
    | b1 :: b2 :: b3 :: r4 =>
      if b1ok4 b0 b1 && cont b2 && cont b3 then
        ((b0 - 0xF0) * 0x40000 + (b1 - 0x80) * 0x1000 + (b2 - 0x80) * 0x40 +
          (b3 - 0x80), r4)
      else (0xFFFD, b1 :: b2 :: b3 :: r4)
    | [b1, b2] => (0xFFFD, [b1, b2])
    | [b1] => (0xFFFD, [b1])
    | [] => (0xFFFD, [])
  else (0xFFFD, rest)

theorem utf8Step_shrink (b0 : Nat) (rest : List Nat) :
    (utf8Step b0 rest).2.length ≤ rest.length := by
  unfold utf8Step
  split_ifs with h1 h2 h3 h4
  · simp
  · match rest with
    | [] => simp
    | b1 :: r2 => by_cases hc : cont b1 = true <;> simp [hc]
  · match rest with
    | [] => simp
    | [b1] => simp
    | b1 :: b2 :: r3 =>
      by_cases hc : (b1ok3 b0 b1 && cont b2) = true <;> simp [hc] <;> omega
  · match rest with
    | [] => simp
    | [b1] => simp
    | [b1, b2] => simp
    | b1 :: b2 :: b3 :: r4 =>
      by_cases hc : (b1ok4 b0 b1 && cont b2 && cont b3) = true <;>
        simp [hc] <;> omega
  · simp

/-- Model of `bytes.decode("utf-8", errors="replace")` from the source:
valid sequences decode to their code points, malformed byte runs are
replaced by U+FFFD and decoding continues (the function is exact on valid
UTF-8 input, which is the only input the theorems below feed it). -/
def utf8DecodeF : List Nat → List Nat
  | [] => []
  | b0 :: rest =>
    (utf8Step b0 rest).1 :: utf8DecodeF (utf8Step b0 rest).2
termination_by l => l.length
decreasing_by
  simp only [List.length_cons]
  exact Nat.lt_succ_of_le (utf8Step_shrink _ _)

/-- Adjacent pairs of a sequence, modelling `zip(ids, ids[1:])`. -/
def pairsOf (ids : List Nat) : List (Nat × Nat) := ids.zip ids.tail

/-- One step of `get_stats`: `counts[pair] += 1` on an insertion-ordered
dictionary (a new key is appended at the end, an existing key keeps its
position). -/
def bump : List ((Nat × Nat) × Nat) → (Nat × Nat) → List ((Nat × Nat) × Nat)
  | [], p => [(p, 1)]
  | (q, c) :: rest, p =>
    if q = p then (q, c + 1) :: rest else (q, c) :: bump rest p

/-- Model of `HindiBPETokenizer.get_stats`: frequencies of adjacent pairs,
as an insertion-ordered dictionary (keys in order of first occurrence). -/
def get_stats (ids : List Nat) : List ((Nat × Nat) × Nat) :=
  (pairsOf ids).foldl bump []

/-- Keys of an ordered dictionary. -/
def keysOf (S : List ((Nat × Nat) × Nat)) : List (Nat × Nat) :=
  S.map (fun e => e.1)

/-- Model of `HindiBPETokenizer.merge`: scan left to right, replace an
adjacent occurrence of `p` by `idx` and advance two positions, otherwise
copy one symbol and advance one position. -/
def merge : List Nat → (Nat × Nat) → Nat → List Nat
  | a :: b :: rest, p, idx =>
    if a = p.1 ∧ b = p.2 then idx :: merge rest p idx
    else a :: merge (b :: rest) p idx
  | l, _, _ => l

/-- Tail of Python's `max(stats, key=stats.get)`: keep the current best,
replace it only on a strictly larger count (so the first maximal entry in
iteration order wins). -/
def pickMaxGo (best : (Nat × Nat) × Nat) :
    List ((Nat × Nat) × Nat) → (Nat × Nat) × Nat
  | [] => best
  | e :: rest => pickMaxGo (if best.2 < e.2 then e else best) rest

/-- Model of Python's `max(stats, key=stats.get)` over the ordered
dictionary (`none` on an empty dictionary, where Python would raise). -/
def pickMax : List ((Nat × Nat) × Nat) → Option ((Nat × Nat) × Nat)
  | [] => none
  | e :: rest => some (pickMaxGo e rest)

/-- Pair selection of one training iteration:
`pair = max(stats, key=stats.get)` over `get_stats(ids)`. -/
def selectPair (ids : List Nat) : Option ((Nat × Nat) × Nat) :=
  pickMax (get_stats ids)

/-- Model of the loop body of `HindiBPETokenizer.train`: `fuel` is the
number of remaining iterations of `range(num_merges)`, `i` the current
iteration index; on each round select the most frequent pair, rewrite the
sequence, append the merge rule and the new vocabulary entry. -/
def trainLoop :
    Nat → Nat → List Nat → List ((Nat × Nat) × Nat) → List (List Nat) →
      List ((Nat × Nat) × Nat) × List (List Nat)
  | 0, _, _, merges, vocab => (merges, vocab)
  | fuel + 1, i, ids, merges, vocab =>
    match selectPair ids with
    | none => (merges, vocab)
    | some (p, _) =>
      trainLoop fuel (i + 1) (merge ids p (256 + i))
        (merges ++ [(p, 256 + i)])
        (vocab ++ [vocab.getD p.1 [] ++ vocab.getD p.2 []])

/-- Tokenizer state: the fields of `HindiBPETokenizer` (`self.vocab_size`,
`self.pattern` abstracted by the classifier, `self.merges`, `self.vocab`).
The vocabulary dictionary has the contiguous key set `0..len-1`, so it is
stored densely, index = token ID. -/
structure Tok where
  vocab_size : Nat
  cc : CharClass
  merges : List ((Nat × Nat) × Nat)
  vocab : List (List Nat)

/-- Initial vocabulary `{idx: bytes([idx]) for idx in range(256)}`. -/
def baseVocab : List (List Nat) := (List.range 256).map (fun i => [i])

/-- Model of `HindiBPETokenizer.__init__`: reject a target vocabulary size
below 256 (the source raises `ValueError`, modelled as `none`), otherwise
return the fresh instance with empty merge table and base vocabulary. -/
def mkTokenizer (vocab_size : Nat) (cc : CharClass) : Option Tok :=
  if vocab_size < 256 then none
  else some ⟨vocab_size, cc, [], baseVocab⟩

/-- Model of `HindiBPETokenizer.train` on a fresh instance: segment the
text, flatten all chunks' UTF-8 bytes into one global sequence, run
`vocab_size - 256` merge iterations. -/
def train (cc : CharClass) (vocab_size : Nat) (text : List Nat) : Tok :=
  let chunks := findall cc text
  let allTokens := (chunks.map utf8Encode).flatten
  let r := trainLoop (vocab_size - 256) 0 allTokens [] baseVocab
  ⟨vocab_size, cc, r.1, r.2⟩

/-- Model of `self.merges.get(p)`: the replacement ID recorded for a pair,
`none` when absent (Python's `float("inf")` default). -/
def rankOf (merges : List ((Nat × Nat) × Nat)) (p : Nat × Nat) : Option Nat :=
  (merges.find? (fun e => decide (e.1 = p))).map (fun e => e.2)

/-- Comparison of `merges.get(p, float("inf"))` values: `none` is infinity. -/
def ltRank : Option Nat → Option Nat → Bool
  | some x, some y => decide (x < y)
  | some _, none => true
  | none, _ => false

/-- Tail of Python's `min(stats, key=lambda p: self.merges.get(p, inf))`:
keep the current best, replace it only on a strictly smaller key. -/
def pickMinGo (merges : List ((Nat × Nat) × Nat)) (best : Nat × Nat) :
    List (Nat × Nat) → Nat × Nat
  | [] => best
  | q :: rest =>
    pickMinGo merges
      (if ltRank (rankOf merges q) (rankOf merges best) then q else best) rest

/-- Model of `min(stats, key=lambda p: self.merges.get(p, float("inf")))`
over the keys of the ordered statistics dictionary. -/
def pickMin (merges : List ((Nat × Nat) × Nat)) :
    List (Nat × Nat) → Option (Nat × Nat)
  | [] => none
  | q :: rest => some (pickMinGo merges q rest)

/-- Fuelled model of the per-chunk merge loop of
`HindiBPETokenizer.encode`: while the sequence has length at least two,
pick the present pair with the smallest recorded replacement ID, stop when
that pair has no entry, otherwise apply the merge.  Every executed round
shrinks the sequence, so fuel `ids.length` is always enough. -/
def encodeLoopF (merges : List ((Nat × Nat) × Nat)) :
    Nat → List Nat → List Nat
  | 0, ids => ids
  | fuel + 1, ids =>
    if ids.length < 2 then ids
    else
      match pickMin merges (keysOf (get_stats ids)) with
      | none => ids
      | some p =>
        match rankOf merges p with
        | none => ids
        | some idx => encodeLoopF merges fuel (merge ids p idx)

/-- The per-chunk merge loop with its adequate fuel. -/
def encodeChunk (merges : List ((Nat × Nat) × Nat)) (chunkIds : List Nat) :
    List Nat :=
  encodeLoopF merges chunkIds.length chunkIds

/-- Model of `HindiBPETokenizer.encode`: segment the text, encode each
chunk's UTF-8 bytes independently, concatenate the results. -/
def encode (t : Tok) (text : List Nat) : List Nat :=
  (findall t.cc text).flatMap (fun ch => encodeChunk t.merges (utf8Encode ch))

/-- Byte expansion step of `HindiBPETokenizer.decode`:
`b"".join(self.vocab[idx] for idx in ids)`, which aborts with a `KeyError`
(`none`) as soon as an ID has no vocabulary entry. -/
def decodeBytes (vocab : List (List Nat)) : List Nat → Option (List Nat)
  | [] => some []
  | i :: rest =>
    match vocab[i]?, decodeBytes vocab rest with
    | some v, some r => some (v ++ r)
    | _, _ => none

/-- Model of `HindiBPETokenizer.decode`: expand every ID through the
vocabulary (failing on a missing ID), then UTF-8-decode with replacement. -/
def decode (t : Tok) (ids : List Nat) : Option (List Nat) :=
  (decodeBytes t.vocab ids).map utf8DecodeF

/-- First-occurrence deduplication of a list (the key order of a Python
dictionary built by repeated insertion). -/
def dedupF : List (Nat × Nat) → List (Nat × Nat)
  | [] => []
  | x :: t => x :: (dedupF t).filter (fun y => decide (y ≠ x))

/-- Spec-side notion for the Trainer's selection rule: the highest adjacent
pair count in the sequence. -/
def maxCount (L : List (Nat × Nat)) : Nat :=
  (L.map (fun p => L.count p)).foldr max 0

/-- Spec-side definition of the Trainer's selection contract, written from
the spec's words: among the adjacent pairs of the sequence, the pair with
the strictly highest count, ties broken in favour of the pair first
encountered in a single left-to-right scan — i.e. the first pair in the
scan whose count attains the maximum. -/
def specSelect (ids : List Nat) : Option (Nat × Nat) :=
  (pairsOf ids).find?
    (fun p => decide ((pairsOf ids).count p = maxCount (pairsOf ids)))

/-- Well-formedness of a merge table relative to a vocabulary: every rule
`(a, b) → v` has vocabulary entries for `a`, `b` and `v`, and the entry of
`v` is the byte concatenation of those of `a` and `b`. -/
def MergesOK (vocab : List (List Nat)) (merges : List ((Nat × Nat) × Nat)) :
    Prop :=
  ∀ e ∈ merges, ∃ va vb, vocab[e.1.1]? = some va ∧ vocab[e.1.2]? = some vb ∧
    vocab[e.2]? = some (va ++ vb)

/-- Rank monotonicity: the replacement ID of the merge rule at insertion
position `k` is `256 + k` (spec section 8, merge rank monotonicity). -/
def RankMono (merges : List ((Nat × Nat) × Nat)) : Prop :=
  ∀ k e, merges[k]? = some e → e.2 = 256 + k

/-- Combined invariant of the training loop before iteration `i`: the
vocabulary has exactly the 256 base entries plus one per performed merge,
base entries are untouched, every recorded merge rule concatenates existing
vocabulary entries, replacement IDs are `256 + rank`, and every symbol of
the working sequence and of the merge table is in the vocabulary's range. -/
def TrainInv (i : Nat) (ids : List Nat) (merges : List ((Nat × Nat) × Nat))
    (vocab : List (List Nat)) : Prop :=
  vocab.length = 256 + i ∧
  merges.length = i ∧
  (∀ j, j < 256 → vocab[j]? = some [j]) ∧
  MergesOK vocab merges ∧
  RankMono merges ∧
  (∀ x ∈ ids, x < vocab.length) ∧
  (∀ e ∈ merges, e.2 < vocab.length ∧ e.1.1 < vocab.length ∧
    e.1.2 < vocab.length)

/-- Concrete classifier agreeing with the regex module's `\p{L}`, `\p{N}`,
`\s` tables on the ASCII range; used to instantiate witness tokenizers. -/
def asciiCC : CharClass where
  isLetter c :=
    (decide (65 ≤ c) && decide (c ≤ 90)) ||
      (decide (97 ≤ c) && decide (c ≤ 122))
  isNum c := decide (48 ≤ c) && decide (c ≤ 57)
  isSpace c := (c == 32) || (decide (9 ≤ c) && decide (c ≤ 13))

/-- Scalar Unicode code point: what Python accepts in
`str.encode("utf-8")` (below `0x110000` and not a surrogate). -/
def ValidCp (c : Nat) : Prop := c < 0x110000 ∧ (c < 0xD800 ∨ 0xE000 ≤ c)

instance (c : Nat) : Decidable (ValidCp c) := by
  unfold ValidCp; exact inferInstance

/-- Valid UTF-8 text: every code point is a Unicode scalar value. -/
def ValidText (s : List Nat) : Prop := ∀ c ∈ s, ValidCp c

instance (s : List Nat) : Decidable (ValidText s) := by
  unfold ValidText; exact inferInstance

/-! Lemmas about the segmenter. -/

theorem altOptSpace_sound {cls : Nat → Bool} {s m r : List Nat}
    (h : altOptSpace cls s = some (m, r)) : m ≠ [] ∧ m ++ r = s := by
  match s with
  | [] => simp [altOptSpace] at h
  | c :: rest =>
    simp only [altOptSpace] at h
    by_cases h1 : (c == 32 && headClass cls rest) = true
    · rw [if_pos h1] at h
      obtain ⟨hm, hr⟩ := Prod.mk.injEq .. ▸ Option.some.inj h
      subst hm hr
      have hc : c = 32 := by
        have h1x := h1
        simp only [Bool.and_eq_true, beq_iff_eq] at h1x
        exact h1x.1
      subst hc
      refine ⟨by simp, ?_⟩
      simp [List.takeWhile_append_dropWhile]
    · rw [if_neg h1] at h
      by_cases h2 : cls c = true
      · rw [if_pos h2] at h
        obtain ⟨hm, hr⟩ := Prod.mk.injEq .. ▸ Option.some.inj h
        subst hm hr
        constructor
        · simp [List.takeWhile_cons, h2]
        · simp [List.takeWhile_append_dropWhile]
      · rw [if_neg h2] at h
        exact absurd h (by simp)

theorem altOptSpace_none_cls {cls : Nat → Bool} {c : Nat} {rest : List Nat}
    (h : altOptSpace cls (c :: rest) = none) : cls c = false := by
  simp only [altOptSpace] at h
  by_cases h1 : (c == 32 && headClass cls rest) = true
  · rw [if_pos h1] at h; exact absurd h (by simp)
  · rw [if_neg h1] at h
    by_cases h2 : cls c = true
    · rw [if_pos h2] at h; exact absurd h (by simp)
    · simpa using h2

theorem wsAlt_sound {cc : CharClass} {s m r : List Nat}
    (h : wsAlt cc s = some (m, r)) : m ≠ [] ∧ m ++ r = s := by
  match s with
  | [] => simp [wsAlt] at h
  | c :: rest =>
    simp only [wsAlt] at h
    by_cases hsp : cc.isSpace c = true
    · rw [if_pos hsp] at h
      have hrun : List.takeWhile cc.isSpace (c :: rest) =
          c :: rest.takeWhile cc.isSpace := by
        simp [List.takeWhile_cons, hsp]
      by_cases he : (List.dropWhile cc.isSpace (c :: rest)).isEmpty = true
      · rw [if_pos he] at h
        obtain ⟨hm, hr⟩ := Prod.mk.injEq .. ▸ Option.some.inj h
        subst hm hr
        exact ⟨by simp [hrun], List.takeWhile_append_dropWhile ..⟩
      · rw [if_neg he] at h
        by_cases h2 : 2 ≤ (List.takeWhile cc.isSpace (c :: rest)).length
        · rw [if_pos h2] at h
          obtain ⟨hm, hr⟩ := Prod.mk.injEq .. ▸ Option.some.inj h
          subst hm hr
          constructor
          · intro hnil
            have hl := congrArg List.length hnil
            rw [List.length_take] at hl
            simp at hl
            omega
          · rw [← List.append_assoc, List.take_append_drop]
            exact List.takeWhile_append_dropWhile ..
        · rw [if_neg h2] at h
          obtain ⟨hm, hr⟩ := Prod.mk.injEq .. ▸ Option.some.inj h
          subst hm hr
          exact ⟨by simp [hrun], List.takeWhile_append_dropWhile ..⟩
    · rw [if_neg hsp] at h
      exact absurd h (by simp)

theorem wsAlt_total {cc : CharClass} {c : Nat} {rest : List Nat}
    (hsp : cc.isSpace c = true) : ∃ v, wsAlt cc (c :: rest) = some v := by
  rw [← Option.isSome_iff_exists]
  simp only [wsAlt, if_pos hsp]
  by_cases he : (List.dropWhile cc.isSpace (c :: rest)).isEmpty = true
  · rw [if_pos he]; rfl
  · rw [if_neg he]
    by_cases h2 : 2 ≤ (List.takeWhile cc.isSpace (c :: rest)).length
    · rw [if_pos h2]; rfl
    · rw [if_neg h2]; rfl

theorem firstSome_mem {α : Type} {l : List (Option α)} {v : α}
    (h : firstSome l = some v) : some v ∈ l := by
  induction l with
  | nil => simp [firstSome] at h
  | cons o rest ih =>
    cases o with
    | none => simp only [firstSome] at h; exact List.mem_cons_of_mem _ (ih h)
    | some w => simp only [firstSome] at h; rw [h]; exact List.mem_cons_self ..

theorem firstSome_none {α : Type} {l : List (Option α)}
    (h : firstSome l = none) : ∀ o ∈ l, o = none := by
  induction l with
  | nil => simp
  | cons o rest ih =>
    cases o with
    | none =>
      simp only [firstSome] at h
      intro x hx
      rcases List.mem_cons.mp hx with hx | hx
      · exact hx
      · exact ih h x hx
    | some w => simp [firstSome] at h

theorem matchAt_sound {cc : CharClass} {s m r : List Nat}
    (h : matchAt cc s = some (m, r)) : m ≠ [] ∧ m ++ r = s := by
  have hm := firstSome_mem h
  simp only [List.mem_cons, List.not_mem_nil, or_false] at hm
  rcases hm with h1 | h1 | h1 | h1 | h1 | h1
  · exact altOptSpace_sound h1.symm
  · exact altOptSpace_sound h1.symm
  · exact altOptSpace_sound h1.symm
  · exact altOptSpace_sound h1.symm
  · exact altOptSpace_sound h1.symm
  · exact wsAlt_sound h1.symm

theorem matchAt_total (cc : CharClass) (c : Nat) (rest : List Nat) :
    ∃ v, matchAt cc (c :: rest) = some v := by
  cases hfs : matchAt cc (c :: rest) with
  | some v => exact ⟨v, rfl⟩
  | none =>
    exfalso
    have hall := firstSome_none hfs
    simp only [List.mem_cons, List.not_mem_nil, or_false] at hall
    have h3 : altOptSpace cc.isLetter (c :: rest) = none :=
      hall _ (by tauto)
    have h4 : altOptSpace cc.isNum (c :: rest) = none :=
      hall _ (by tauto)
    have h5 : altOptSpace (isOther cc) (c :: rest) = none :=
      hall _ (by tauto)
    have h6 : wsAlt cc (c :: rest) = none :=
      hall _ (by tauto)
    by_cases hsp : cc.isSpace c = true
    · obtain ⟨v, hv⟩ := @wsAlt_total cc c rest hsp
      rw [h6] at hv
      exact Option.noConfusion hv
    · have hl : cc.isLetter c = false := altOptSpace_none_cls h3
      have hn : cc.isNum c = false := altOptSpace_none_cls h4
      have ho : isOther cc c = false := altOptSpace_none_cls h5
      simp [isOther, hl, hn] at ho
      exact hsp (by simp [ho])

theorem findallF_sound (cc : CharClass) :
    ∀ fuel s, s.length ≤ fuel →
      (findallF cc fuel s).flatten = s ∧ ∀ m ∈ findallF cc fuel s, m ≠ [] := by
  intro fuel
  induction fuel with
  | zero =>
    intro s hs
    have : s = [] := List.eq_nil_of_length_eq_zero (by omega)
    subst this
    simp [findallF]
  | succ fuel ih =>
    intro s hs
    match s with
    | [] => simp [findallF]
    | c :: rest =>
      obtain ⟨⟨m, r⟩, hm⟩ := matchAt_total cc c rest
      obtain ⟨hne, happ⟩ := matchAt_sound hm
      have hr : r.length ≤ fuel := by
        have := congrArg List.length happ
        simp at this
        have : 1 ≤ m.length := List.length_pos.mpr hne
        simp at hs
        omega
      unfold findallF
      rw [hm]
      obtain ⟨ihf, ihn⟩ := ih r hr
      constructor
      · simp [ihf, happ]
      · intro x hx
        rcases List.mem_cons.mp hx with h | h
        · subst h; exact hne
        · exact ihn x h

theorem findall_flatten (cc : CharClass) (s : List Nat) :
    (findall cc s).flatten = s :=
  (findallF_sound cc s.length s le_rfl).1

theorem findall_nonempty (cc : CharClass) (s : List Nat) :
    ∀ m ∈ findall cc s, m ≠ [] :=
  (findallF_sound cc s.length s le_rfl).2

/-! Lemmas about UTF-8 encoding and decoding. -/

theorem utf8EncodeCp_lt (c : Nat) (hc : c < 0x110000) :
    ∀ b ∈ utf8EncodeCp c, b < 256 := by
  intro b hb
  unfold utf8EncodeCp at hb
  by_cases h1 : c < 0x80
  · rw [if_pos h1] at hb; simp at hb; omega
  · rw [if_neg h1] at hb
    by_cases h2 : c < 0x800
    · rw [if_pos h2] at hb; simp at hb; rcases hb with h | h <;> omega
    · rw [if_neg h2] at hb
      by_cases h3 : c < 0x10000
      · rw [if_pos h3] at hb; simp at hb; rcases hb with h | h | h <;> omega
      · rw [if_neg h3] at hb; simp at hb; rcases hb with h | h | h | h <;> omega

theorem utf8DecodeF_one {b0 : Nat} (h : b0 < 0x80) (rest : List Nat) :
    utf8DecodeF (b0 :: rest) = b0 :: utf8DecodeF rest := by
  rw [utf8DecodeF,
    show utf8Step b0 rest = (b0, rest) by unfold utf8Step; rw [if_pos h]]

theorem utf8DecodeF_two {b0 b1 : Nat} (h0 : 0xC2 ≤ b0 ∧ b0 < 0xE0)
    (h1 : cont b1 = true) (rest : List Nat) :
    utf8DecodeF (b0 :: b1 :: rest) =
      ((b0 - 0xC0) * 0x40 + (b1 - 0x80)) :: utf8DecodeF rest := by
  rw [utf8DecodeF, show utf8Step b0 (b1 :: rest) =
      ((b0 - 0xC0) * 0x40 + (b1 - 0x80), rest) by
    unfold utf8Step; rw [if_neg (by omega), if_pos h0]; simp [h1]]

theorem utf8DecodeF_three {b0 b1 b2 : Nat} (h0 : 0xE0 ≤ b0 ∧ b0 < 0xF0)
    (h1 : b1ok3 b0 b1 = true) (h2 : cont b2 = true) (rest : List Nat) :
    utf8DecodeF (b0 :: b1 :: b2 :: rest) =
      ((b0 - 0xE0) * 0x1000 + (b1 - 0x80) * 0x40 + (b2 - 0x80)) ::
        utf8DecodeF rest := by
  rw [utf8DecodeF, show utf8Step b0 (b1 :: b2 :: rest) =
      ((b0 - 0xE0) * 0x1000 + (b1 - 0x80) * 0x40 + (b2 - 0x80), rest) by
    unfold utf8Step
    rw [if_neg (by omega), if_neg (by omega), if_pos h0]
    simp [h1, h2]]

theorem utf8DecodeF_four {b0 b1 b2 b3 : Nat} (h0 : 0xF0 ≤ b0 ∧ b0 ≤ 0xF4)
    (h1 : b1ok4 b0 b1 = true) (h2 : cont b2 = true) (h3 : cont b3 = true)
    (rest : List Nat) :
    utf8DecodeF (b0 :: b1 :: b2 :: b3 :: rest) =
      ((b0 - 0xF0) * 0x40000 + (b1 - 0x80) * 0x1000 + (b2 - 0x80) * 0x40 +
        (b3 - 0x80)) :: utf8DecodeF rest := by
  rw [utf8DecodeF, show utf8Step b0 (b1 :: b2 :: b3 :: rest) =
      ((b0 - 0xF0) * 0x40000 + (b1 - 0x80) * 0x1000 + (b2 - 0x80) * 0x40 +
        (b3 - 0x80), rest) by
    unfold utf8Step
    rw [if_neg (by omega), if_neg (by omega), if_neg (by omega), if_pos h0]
    simp [h1, h2, h3]]

theorem utf8DecodeF_encCons {c : Nat} (hc : ValidCp c) (rest : List Nat) :
    utf8DecodeF (utf8EncodeCp c ++ rest) = c :: utf8DecodeF rest := by
  obtain ⟨hlt, hsur⟩ := hc
  by_cases h1 : c < 0x80
  · simp only [utf8EncodeCp, if_pos h1, List.cons_append, List.nil_append]
    rw [utf8DecodeF_one h1]
  · by_cases h2 : c < 0x800
    · simp only [utf8EncodeCp, if_neg h1, if_pos h2, List.cons_append,
        List.nil_append]
      rw [utf8DecodeF_two (by omega)
        (by simp only [cont, Bool.and_eq_true, decide_eq_true_eq]; omega)]
      refine congrArg (fun n => n :: utf8DecodeF rest) ?_
      omega
    · by_cases h3 : c < 0x10000
      · simp only [utf8EncodeCp, if_neg h1, if_neg h2, if_pos h3,
          List.cons_append, List.nil_append]
        rw [utf8DecodeF_three (by omega) ?_
          (by simp only [cont, Bool.and_eq_true, decide_eq_true_eq]; omega)]
        · refine congrArg (fun n => n :: utf8DecodeF rest) ?_
          omega
        · simp only [b1ok3, beq_iff_eq]
          split_ifs with hE0 hED <;>
            simp only [cont, Bool.and_eq_true, decide_eq_true_eq] <;> omega
      · simp only [utf8EncodeCp, if_neg h1, if_neg h2, if_neg h3,
          List.cons_append, List.nil_append]
        rw [utf8DecodeF_four (by omega) ?_
          (by simp only [cont, Bool.and_eq_true, decide_eq_true_eq]; omega)
          (by simp only [cont, Bool.and_eq_true, decide_eq_true_eq]; omega)]
        · refine congrArg (fun n => n :: utf8DecodeF rest) ?_
          omega
        · simp only [b1ok4, beq_iff_eq]
          split_ifs with hF0 hF4 <;>
            simp only [cont, Bool.and_eq_true, decide_eq_true_eq] <;> omega

theorem utf8DecodeF_utf8Encode {s : List Nat} (hs : ValidText s) :
    utf8DecodeF (utf8Encode s) = s := by
  induction s with
  | nil => simp [utf8Encode, utf8DecodeF]
  | cons c t ih =>
    have hc : ValidCp c := hs c (List.mem_cons_self ..)
    have ht : ValidText t := fun x hx => hs x (List.mem_cons_of_mem _ hx)
    have : utf8Encode (c :: t) = utf8EncodeCp c ++ utf8Encode t := by
      simp [utf8Encode]
    rw [this, utf8DecodeF_encCons hc, ih ht]

/-! Lemmas about the ordered statistics dictionary. -/

theorem keysOf_cons (e : (Nat × Nat) × Nat) (l : List ((Nat × Nat) × Nat)) :
    keysOf (e :: l) = e.1 :: keysOf l := rfl

theorem mem_keysOf_of_mem {l : List ((Nat × Nat) × Nat)} {p : Nat × Nat}
    {c : Nat} (h : (p, c) ∈ l) : p ∈ keysOf l :=
  List.mem_map_of_mem _ h

theorem mem_dedupF {p : Nat × Nat} {L : List (Nat × Nat)} :
    p ∈ dedupF L ↔ p ∈ L := by
  induction L with
  | nil => simp [dedupF]
  | cons x t ih =>
    simp only [dedupF, List.mem_cons, List.mem_filter, decide_eq_true_eq]
    constructor
    · rintro (h | ⟨h, -⟩)
      · exact Or.inl h
      · exact Or.inr (ih.mp h)
    · rintro (h | h)
      · exact Or.inl h
      · by_cases hx : p = x
        · exact Or.inl hx
        · exact Or.inr ⟨ih.mpr h, hx⟩

theorem nodup_dedupF (L : List (Nat × Nat)) : (dedupF L).Nodup := by
  induction L with
  | nil => simp [dedupF]
  | cons x t ih =>
    simp only [dedupF, List.nodup_cons]
    constructor
    · intro hx
      have := (List.mem_filter.mp hx).2
      simp at this
    · exact ih.filter _

theorem find?_filter_ne {pred : Nat × Nat → Bool} {x : Nat × Nat}
    (hx : pred x = false) (l : List (Nat × Nat)) :
    (l.filter (fun y => decide (y ≠ x))).find? pred = l.find? pred := by
  induction l with
  | nil => simp
  | cons a t ih =>
    by_cases hax : a = x
    · subst hax
      rw [List.filter_cons, if_neg (by simp), List.find?_cons, hx]
      exact ih
    · rw [List.filter_cons, if_pos (by simp [hax])]
      rw [List.find?_cons, List.find?_cons]
      cases hpa : pred a
      · exact ih
      · rfl

theorem find?_dedupF (pred : Nat × Nat → Bool) (L : List (Nat × Nat)) :
    (dedupF L).find? pred = L.find? pred := by
  induction L with
  | nil => simp [dedupF]
  | cons x t ih =>
    simp only [dedupF]
    rw [List.find?_cons, List.find?_cons]
    cases hpx : pred x
    · rw [find?_filter_ne hpx, ih]
    · rfl

theorem keysOf_bump (acc : List ((Nat × Nat) × Nat)) (x : Nat × Nat) :
    keysOf (bump acc x) =
      if x ∈ keysOf acc then keysOf acc else keysOf acc ++ [x] := by
  induction acc with
  | nil => simp [bump, keysOf]
  | cons e rest ih =>
    obtain ⟨q, d⟩ := e
    by_cases hqx : q = x
    · subst hqx
      simp [bump, keysOf_cons, keysOf]
    · rw [show bump ((q, d) :: rest) x = (q, d) :: bump rest x by
        simp [bump, hqx]]
      rw [keysOf_cons, keysOf_cons, ih]
      by_cases hx : x ∈ keysOf rest
      · rw [if_pos hx, if_pos (by simp [keysOf_cons, hx])]
      · rw [if_neg hx, if_neg (by simp [keysOf_cons, hx, Ne.symm hqx])]
        rfl

theorem bump_mem {acc : List ((Nat × Nat) × Nat)} {x p : Nat × Nat} {c : Nat}
    (hnd : (keysOf acc).Nodup) (h : (p, c) ∈ bump acc x) :
    ((p, c) ∈ acc ∧ p ≠ x) ∨
      (p = x ∧ ((c = 1 ∧ x ∉ keysOf acc) ∨ ∃ d, (x, d) ∈ acc ∧ c = d + 1)) := by
  induction acc with
  | nil =>
    simp only [bump, List.mem_singleton] at h
    obtain ⟨hp, hc⟩ := Prod.mk.injEq .. ▸ h
    exact Or.inr ⟨hp, Or.inl ⟨hc, by simp [keysOf]⟩⟩
  | cons e rest ih =>
    obtain ⟨q, d⟩ := e
    rw [keysOf_cons, List.nodup_cons] at hnd
    by_cases hqx : q = x
    · rw [show bump ((q, d) :: rest) x = (q, d + 1) :: rest by
        simp [bump, hqx]] at h
      rcases List.mem_cons.mp h with h | h
      · obtain ⟨hp, hc⟩ := Prod.mk.injEq .. ▸ h
        refine Or.inr ⟨hp.trans hqx, Or.inr ⟨d, ?_, hc⟩⟩
        rw [← hqx]
        exact List.mem_cons_self ..
      · refine Or.inl ⟨List.mem_cons_of_mem _ h, ?_⟩
        intro hpx
        refine hnd.1 ?_
        rw [show q = p from hqx.trans hpx.symm]
        exact mem_keysOf_of_mem h
    · rw [show bump ((q, d) :: rest) x = (q, d) :: bump rest x by
        simp [bump, hqx]] at h
      rcases List.mem_cons.mp h with h | h
      · obtain ⟨hp, hc⟩ := Prod.mk.injEq .. ▸ h
        exact Or.inl ⟨by rw [hp, hc]; exact List.mem_cons_self .., hp ▸ hqx⟩
      · rcases ih hnd.2 h with ⟨hm, hne⟩ | ⟨hp, hrest⟩
        · exact Or.inl ⟨List.mem_cons_of_mem _ hm, hne⟩
        · refine Or.inr ⟨hp, ?_⟩
          rcases hrest with ⟨hc, hnk⟩ | ⟨d2, hm, hc⟩
          · exact Or.inl ⟨hc, by simp [keysOf_cons, hnk, Ne.symm hqx]⟩
          · exact Or.inr ⟨d2, List.mem_cons_of_mem _ hm, hc⟩

theorem keysOf_foldl_bump (L : List (Nat × Nat)) :
    ∀ acc, keysOf (List.foldl bump acc L) =
      keysOf acc ++ (dedupF L).filter (fun p => decide (p ∉ keysOf acc)) := by
  induction L with
  | nil => intro acc; simp [dedupF]
  | cons x t ih =>
    intro acc
    rw [List.foldl_cons, ih (bump acc x), keysOf_bump]
    by_cases hx : x ∈ keysOf acc
    · rw [if_pos hx]
      simp only [dedupF, List.filter_cons]
      rw [if_neg (by simp [hx]), List.filter_filter]
      congr 1
      refine List.filter_congr ?_
      intro p hp
      by_cases hpk : p ∈ keysOf acc
      · simp [hpk]
      · have hpx : p ≠ x := fun h => hpk (h ▸ hx)
        simp [hpk, hpx]
    · rw [if_neg hx]
      simp only [dedupF, List.filter_cons]
      rw [if_pos (by simp [hx]), List.filter_filter]
      rw [List.append_assoc, List.singleton_append]
      congr 2
      refine List.filter_congr ?_
      intro p hp
      by_cases hpk : p ∈ keysOf acc <;> by_cases hpx : p = x <;>
        simp [hpk, hpx]

theorem foldl_bump_counts (L : List (Nat × Nat)) :
    ∀ (acc : List ((Nat × Nat) × Nat)) (g : Nat × Nat → Nat),
      (keysOf acc).Nodup → (∀ p c, (p, c) ∈ acc → c = g p) →
      (∀ p, p ∉ keysOf acc → g p = 0) →
      ∀ p c, (p, c) ∈ List.foldl bump acc L → c = g p + L.count p := by
  induction L with
  | nil =>
    intro acc g hnd hg hg0 p c h
    simp only [List.foldl_nil] at h
    simp [hg p c h]
  | cons x t ih =>
    intro acc g hnd hg hg0 p c h
    rw [List.foldl_cons] at h
    have hnd2 : (keysOf (bump acc x)).Nodup := by
      rw [keysOf_bump]
      by_cases hx : x ∈ keysOf acc
      · rwa [if_pos hx]
      · rw [if_neg hx]
        simp [List.nodup_append, hnd, hx]
    have hg2 : ∀ p c, (p, c) ∈ bump acc x →
        c = g p + (if p = x then 1 else 0) := by
      intro p c hm
      rcases bump_mem hnd hm with ⟨hm, hne⟩ | ⟨hp, hrest⟩
      · simp [hg p c hm, hne]
      · subst hp
        rcases hrest with ⟨hc, hnk⟩ | ⟨d, hm, hc⟩
        · simp [hc, hg0 _ hnk]
        · simp [hc, hg _ d hm]
    have hg02 : ∀ p, p ∉ keysOf (bump acc x) →
        g p + (if p = x then 1 else 0) = 0 := by
      intro p hp
      rw [keysOf_bump] at hp
      by_cases hx : x ∈ keysOf acc
      · rw [if_pos hx] at hp
        have : p ≠ x := fun he => hp (he ▸ hx)
        simp [this, hg0 p hp]
      · rw [if_neg hx] at hp
        simp only [List.mem_append, List.mem_singleton] at hp
        push_neg at hp
        simp [hp.2, hg0 p hp.1]
    have := ih (bump acc x) (fun p => g p + (if p = x then 1 else 0))
      hnd2 hg2 hg02 p c h
    rw [this, List.count_cons]
    by_cases hpx : p = x
    · simp [hpx]
      omega
    · simp [hpx, Ne.symm hpx]

theorem get_stats_keys (ids : List Nat) :
    keysOf (get_stats ids) = dedupF (pairsOf ids) := by
  rw [get_stats, keysOf_foldl_bump]
  simp [keysOf]

theorem get_stats_counts {ids : List Nat} {p : Nat × Nat} {c : Nat}
    (h : (p, c) ∈ get_stats ids) : c = (pairsOf ids).count p := by
  have := foldl_bump_counts (pairsOf ids) [] (fun _ => 0) (by simp [keysOf])
    (by simp) (by simp) p c h
  simpa using this

theorem eq_map_of_keys_counts :
    ∀ (S : List ((Nat × Nat) × Nat)) (K : List (Nat × Nat))
      (f : Nat × Nat → Nat), keysOf S = K →
      (∀ p c, (p, c) ∈ S → c = f p) → S = K.map (fun p => (p, f p)) := by
  intro S
  induction S with
  | nil =>
    intro K f hk _
    rw [← hk]
    simp [keysOf]
  | cons e S ih =>
    intro K f hk hc
    obtain ⟨p, c⟩ := e
    rw [keysOf_cons] at hk
    subst hk
    simp only [List.map_cons]
    rw [hc p c (List.mem_cons_self ..)]
    exact congrArg ((p, f p) :: ·)
      (ih _ f rfl (fun q d hm => hc q d (List.mem_cons_of_mem _ hm)))

theorem get_stats_eq (ids : List Nat) :
    get_stats ids = (dedupF (pairsOf ids)).map
      (fun p => (p, (pairsOf ids).count p)) :=
  eq_map_of_keys_counts _ _ _ (get_stats_keys ids)
    (fun _ _ h => get_stats_counts h)

theorem mem_pairsOf_of_mem_stats {ids : List Nat} {p : Nat × Nat} {c : Nat}
    (h : (p, c) ∈ get_stats ids) : p ∈ pairsOf ids := by
  have := mem_keysOf_of_mem h
  rw [get_stats_keys] at this
  exact mem_dedupF.mp this

/-! Lemmas about the selection functions (Python `max` / `min`). -/

def maxNat (l : List Nat) : Nat := l.foldr max 0

def maxCntS (S : List ((Nat × Nat) × Nat)) : Nat :=
  maxNat (S.map (fun e => e.2))

theorem le_maxNat {l : List Nat} {x : Nat} (h : x ∈ l) : x ≤ maxNat l := by
  induction l with
  | nil => simp at h
  | cons a t ih =>
    rcases List.mem_cons.mp h with h | h
    · subst h; exact le_max_left ..
    · exact le_trans (ih h) (le_max_right ..)

theorem maxNat_le {l : List Nat} {n : Nat} (h : ∀ x ∈ l, x ≤ n) :
    maxNat l ≤ n := by
  induction l with
  | nil => exact Nat.zero_le n
  | cons a t ih =>
    simp only [maxNat, List.foldr_cons]
    have h1 := h a (List.mem_cons_self ..)
    have h2 := ih (fun x hx => h x (List.mem_cons_of_mem _ hx))
    simp only [maxNat] at h2
    omega

theorem maxCntS_cons (e : (Nat × Nat) × Nat) (t : List ((Nat × Nat) × Nat)) :
    maxCntS (e :: t) = max e.2 (maxCntS t) := rfl

theorem pickMaxGo_keep {best : (Nat × Nat) × Nat}
    {l : List ((Nat × Nat) × Nat)} (h : ∀ e ∈ l, ¬ best.2 < e.2) :
    pickMaxGo best l = best := by
  induction l with
  | nil => rfl
  | cons e t ih =>
    simp only [pickMaxGo]
    rw [if_neg (h e (List.mem_cons_self ..))]
    exact ih (fun f hf => h f (List.mem_cons_of_mem _ hf))

theorem pickMaxGo_find {l : List ((Nat × Nat) × Nat)} :
    ∀ best, best.2 < maxCntS l →
      ∃ e, l.find? (fun e => decide (e.2 = maxCntS l)) = some e ∧
        pickMaxGo best l = e := by
  induction l with
  | nil =>
    intro best h
    simp [maxCntS, maxNat] at h
  | cons f t ih =>
    intro best h
    by_cases hft : maxCntS t ≤ f.2
    · have hMe : maxCntS (f :: t) = f.2 := by rw [maxCntS_cons]; omega
      refine ⟨f, ?_, ?_⟩
      · rw [List.find?_cons]
        simp [hMe]
      · simp only [pickMaxGo]
        rw [if_pos (by omega : best.2 < f.2)]
        refine pickMaxGo_keep ?_
        intro e he
        have := le_maxNat (List.mem_map_of_mem (fun e => e.2) he)
        have h2 : e.2 ≤ maxCntS t := this
        omega
    · have hMt : maxCntS (f :: t) = maxCntS t := by rw [maxCntS_cons]; omega
      obtain ⟨e, hfind, hgo⟩ := ih (if best.2 < f.2 then f else best)
        (by split_ifs <;> omega)
      refine ⟨e, ?_, ?_⟩
      · rw [hMt, List.find?_cons]
        simp only [decide_eq_false (show ¬(f.2 = maxCntS t) from by omega)]
        exact hfind
      · simp only [pickMaxGo]
        exact hgo

theorem pickMax_eq_find (S : List ((Nat × Nat) × Nat)) :
    pickMax S = S.find? (fun e => decide (e.2 = maxCntS S)) := by
  cases S with
  | nil => rfl
  | cons e rest =>
    by_cases h : maxCntS rest ≤ e.2
    · have hMe : maxCntS (e :: rest) = e.2 := by rw [maxCntS_cons]; omega
      rw [show pickMax (e :: rest) = some (pickMaxGo e rest) from rfl]
      rw [pickMaxGo_keep (fun f hf => by
        have := le_maxNat (List.mem_map_of_mem (fun e => e.2) hf)
        have h2 : f.2 ≤ maxCntS rest := this
        omega)]
      rw [List.find?_cons]
      simp [hMe]
    · have he2 : e.2 < maxCntS (e :: rest) := by rw [maxCntS_cons]; omega
      have hMt : maxCntS (e :: rest) = maxCntS rest := by
        rw [maxCntS_cons]; omega
      obtain ⟨f, hfind, hgo⟩ := @pickMaxGo_find rest e (by omega)
      rw [show pickMax (e :: rest) = some (pickMaxGo e rest) from rfl, hgo]
      rw [hMt, List.find?_cons]
      simp only [decide_eq_false (show ¬(e.2 = maxCntS rest) from by omega)]
      exact hfind.symm

theorem pickMaxGo_mem (l : List ((Nat × Nat) × Nat)) :
    ∀ best, pickMaxGo best l ∈ best :: l := by
  induction l with
  | nil => intro best; simp [pickMaxGo]
  | cons e t ih =>
    intro best
    simp only [pickMaxGo]
    by_cases hb : best.2 < e.2
    · rw [if_pos hb]
      have := ih e
      rcases List.mem_cons.mp this with h | h
      · rw [h]; simp
      · simp [List.mem_cons_of_mem, h]
    · rw [if_neg hb]
      have := ih best
      rcases List.mem_cons.mp this with h | h
      · rw [h]; simp
      · simp [List.mem_cons_of_mem, h]

theorem pickMax_mem {S : List ((Nat × Nat) × Nat)} {e : (Nat × Nat) × Nat}
    (h : pickMax S = some e) : e ∈ S := by
  cases S with
  | nil => simp [pickMax] at h
  | cons f t =>
    rw [show pickMax (f :: t) = some (pickMaxGo f t) from rfl] at h
    have := pickMaxGo_mem t f
    rwa [Option.some.inj h] at this

theorem selectPair_mem_pairs {ids : List Nat} {p : Nat × Nat} {c : Nat}
    (h : selectPair ids = some (p, c)) : p ∈ pairsOf ids :=
  mem_pairsOf_of_mem_stats (pickMax_mem h)

/-! Lemmas about the merge engine. -/

theorem pairsOf_cons2 (a b : Nat) (rest : List Nat) :
    pairsOf (a :: b :: rest) = (a, b) :: pairsOf (b :: rest) := rfl

theorem merge_length_le (ids : List Nat) (p : Nat × Nat) (idx : Nat) :
    (merge ids p idx).length ≤ ids.length := by
  induction ids, p, idx using merge.induct with
  | case1 a b rest p idx h ih => rw [merge, if_pos h]; simp at ih ⊢; omega
  | case2 a b rest p idx h ih => rw [merge, if_neg h]; simp at ih ⊢; omega
  | case3 l p idx h =>
    match l, h with
    | [], _ => simp [merge]
    | [a], _ => simp [merge]
    | a :: b :: rest, h => exact (h a b rest rfl).elim

theorem merge_length_lt {ids : List Nat} {p : Nat × Nat}
    (h : p ∈ pairsOf ids) (idx : Nat) :
    (merge ids p idx).length < ids.length := by
  induction ids, p, idx using merge.induct with
  | case1 a b rest p idx hc ih =>
    rw [merge, if_pos hc]
    have := merge_length_le rest p idx
    simp
    omega
  | case2 a b rest p idx hc ih =>
    rw [merge, if_neg hc]
    rw [pairsOf_cons2, List.mem_cons] at h
    rcases h with h | h
    · exact absurd (by rw [h] : (a, b) = (p.1, p.2)) (by
        intro he
        obtain ⟨h1, h2⟩ := Prod.mk.injEq .. ▸ he
        exact hc ⟨h1, h2⟩)
    · have := ih h
      simp at this ⊢
      omega
  | case3 l p idx hl =>
    exfalso
    match l, hl with
    | [], _ => simp [pairsOf] at h
    | [a], _ => simp [pairsOf] at h
    | a :: b :: rest, hl => exact hl a b rest rfl

theorem merge_mem {ids : List Nat} {p : Nat × Nat} {idx x : Nat}
    (h : x ∈ merge ids p idx) : x ∈ ids ∨ x = idx := by
  induction ids, p, idx using merge.induct with
  | case1 a b rest p idx hc ih =>
    rw [merge, if_pos hc] at h
    rcases List.mem_cons.mp h with h | h
    · exact Or.inr h
    · rcases ih h with h | h
      · exact Or.inl (by simp [h])
      · exact Or.inr h
  | case2 a b rest p idx hc ih =>
    rw [merge, if_neg hc] at h
    rcases List.mem_cons.mp h with h | h
    · exact Or.inl (by simp [h])
    · rcases ih h with h | h
      · exact Or.inl (by simp [List.mem_cons.mp h])
      · exact Or.inr h
  | case3 l p idx hl =>
    match l, hl, h with
    | [], _, h => simp [merge] at h
    | [a], _, h => simp [merge] at h; simp [h]
    | a :: b :: rest, hl, _ => exact (hl a b rest rfl).elim

theorem decodeBytes_cons (vocab : List (List Nat)) (i : Nat)
    (rest : List Nat) :
    decodeBytes vocab (i :: rest) =
      (vocab[i]?).bind
        (fun v => (decodeBytes vocab rest).map (fun r => v ++ r)) := by
  rw [decodeBytes]
  cases vocab[i]? <;> cases decodeBytes vocab rest <;> rfl

theorem merge_decodeBytes {vocab : List (List Nat)} {p : Nat × Nat}
    {idx : Nat} {va vb : List Nat} (hva : vocab[p.1]? = some va)
    (hvb : vocab[p.2]? = some vb) (hvi : vocab[idx]? = some (va ++ vb)) :
    ∀ ids, decodeBytes vocab (merge ids p idx) = decodeBytes vocab ids := by
  have main : ∀ n ids, ids.length ≤ n →
      decodeBytes vocab (merge ids p idx) = decodeBytes vocab ids := by
    intro n
    induction n with
    | zero =>
      intro ids h
      have : ids = [] := List.eq_nil_of_length_eq_zero (by omega)
      subst this
      rfl
    | succ n ih =>
      intro ids h
      match ids with
      | [] => rfl
      | [a] => rfl
      | a :: b :: rest =>
        by_cases hc : a = p.1 ∧ b = p.2
        · rw [merge, if_pos hc, decodeBytes_cons, decodeBytes_cons,
            decodeBytes_cons, hc.1, hc.2, hva, hvb, hvi,
            ih rest (by simp at h ⊢; omega)]
          cases decodeBytes vocab rest <;> simp
        · rw [merge, if_neg hc, decodeBytes_cons, decodeBytes_cons,
            ih (b :: rest) (by simp at h ⊢; omega)]
  exact fun ids => main ids.length ids le_rfl

/-! Lemmas about the encode loop. -/

theorem pickMinGo_mem (merges : List ((Nat × Nat) × Nat))
    (l : List (Nat × Nat)) :
    ∀ best, pickMinGo merges best l ∈ best :: l := by
  induction l with
  | nil => intro best; simp [pickMinGo]
  | cons q t ih =>
    intro best
    simp only [pickMinGo]
    by_cases hb : ltRank (rankOf merges q) (rankOf merges best) = true
    · rw [if_pos hb]
      rcases List.mem_cons.mp (ih q) with h | h
      · rw [h]; simp
      · simp [List.mem_cons_of_mem, h]
    · rw [if_neg hb]
      rcases List.mem_cons.mp (ih best) with h | h
      · rw [h]; simp
      · simp [List.mem_cons_of_mem, h]

theorem pickMin_mem {merges : List ((Nat × Nat) × Nat)}
    {K : List (Nat × Nat)} {p : Nat × Nat} (h : pickMin merges K = some p) :
    p ∈ K := by
  cases K with
  | nil => simp [pickMin] at h
  | cons q t =>
    rw [show pickMin merges (q :: t) = some (pickMinGo merges q t) from rfl]
      at h
    have := pickMinGo_mem merges t q
    rwa [Option.some.inj h] at this

theorem ltRank_none_left (r : Option Nat) : ltRank none r = false := rfl

theorem pickMinGo_none {merges : List ((Nat × Nat) × Nat)}
    {l : List (Nat × Nat)} :
    ∀ best, rankOf merges (pickMinGo merges best l) = none →
      rankOf merges best = none ∧ ∀ q ∈ l, rankOf merges q = none := by
  induction l with
  | nil => intro best h; exact ⟨h, by simp⟩
  | cons q t ih =>
    intro best h
    simp only [pickMinGo] at h
    by_cases hb : ltRank (rankOf merges q) (rankOf merges best) = true
    · rw [if_pos hb] at h
      have hq := (ih q h).1
      rw [hq, ltRank_none_left] at hb
      exact absurd hb (by simp)
    · rw [if_neg hb] at h
      obtain ⟨h1, h2⟩ := ih best h
      refine ⟨h1, ?_⟩
      intro x hx
      rcases List.mem_cons.mp hx with hx | hx
      · subst hx
        rw [h1] at hb
        cases hr : rankOf merges x with
        | none => rfl
        | some v => rw [hr] at hb; exact absurd rfl hb
      · exact h2 x hx

theorem mem_keys_stats_of_mem_pairs {ids : List Nat} {q : Nat × Nat}
    (h : q ∈ pairsOf ids) : q ∈ keysOf (get_stats ids) := by
  rw [get_stats_keys]
  exact mem_dedupF.mpr h

theorem pairsOf_ne_nil {ids : List Nat} (h : 2 ≤ ids.length) :
    pairsOf ids ≠ [] := by
  match ids with
  | a :: b :: rest => rw [pairsOf_cons2]; simp

theorem keysOf_eq_nil {S : List ((Nat × Nat) × Nat)} (h : keysOf S = []) :
    S = [] := by
  cases S with
  | nil => rfl
  | cons e t => simp [keysOf_cons] at h

theorem encodeLoopF_length_le (merges : List ((Nat × Nat) × Nat)) :
    ∀ fuel ids, (encodeLoopF merges fuel ids).length ≤ ids.length := by
  intro fuel
  induction fuel with
  | zero => intro ids; exact Nat.le_refl _
  | succ fuel ih =>
    intro ids
    rw [encodeLoopF]
    split
    · exact Nat.le_refl _
    · split
      · exact Nat.le_refl _
      · split
        · exact Nat.le_refl _
        · exact le_trans (ih _) (merge_length_le ..)

theorem encodeLoopF_nil (merges : List ((Nat × Nat) × Nat)) (fuel : Nat) :
    encodeLoopF merges fuel [] = [] := by
  cases fuel with
  | zero => rfl
  | succ fuel => rw [encodeLoopF, if_pos (by simp)]

theorem pickMin_mem_pairs {merges : List ((Nat × Nat) × Nat)}
    {ids : List Nat} {p : Nat × Nat}
    (h : pickMin merges (keysOf (get_stats ids)) = some p) :
    p ∈ pairsOf ids := by
  have := pickMin_mem h
  rw [get_stats_keys] at this
  exact mem_dedupF.mp this

theorem encodeLoopF_congr (merges : List ((Nat × Nat) × Nat)) :
    ∀ f1 f2 ids, ids.length ≤ f1 → ids.length ≤ f2 →
      encodeLoopF merges f1 ids = encodeLoopF merges f2 ids := by
  intro f1
  induction f1 with
  | zero =>
    intro f2 ids h1 h2
    have : ids = [] := List.eq_nil_of_length_eq_zero (by omega)
    subst this
    rw [encodeLoopF_nil, encodeLoopF_nil]
  | succ f1 ih =>
    intro f2 ids h1 h2
    cases f2 with
    | zero =>
      have : ids = [] := List.eq_nil_of_length_eq_zero (by omega)
      subst this
      rw [encodeLoopF_nil, encodeLoopF_nil]
    | succ f2 =>
      rw [encodeLoopF, encodeLoopF]
      by_cases hlen : ids.length < 2
      · rw [if_pos hlen, if_pos hlen]
      · rw [if_neg hlen, if_neg hlen]
        cases hpm : pickMin merges (keysOf (get_stats ids)) with
        | none => rfl
        | some p =>
          simp only
          cases hr : rankOf merges p with
          | none => rfl
          | some idx =>
            simp only
            have hlt : (merge ids p idx).length < ids.length :=
              merge_length_lt (pickMin_mem_pairs hpm) idx
            exact ih f2 (merge ids p idx) (by omega) (by omega)

theorem encodeChunk_eq_loop (merges : List ((Nat × Nat) × Nat))
    (fuel : Nat) (ids : List Nat) (h : ids.length ≤ fuel) :
    encodeLoopF merges fuel ids = encodeChunk merges ids :=
  encodeLoopF_congr merges fuel ids.length ids h le_rfl

theorem encodeChunk_step {merges : List ((Nat × Nat) × Nat)}
    {ids : List Nat} {p : Nat × Nat} {idx : Nat}
    (h2 : ¬ ids.length < 2)
    (hpm : pickMin merges (keysOf (get_stats ids)) = some p)
    (hr : rankOf merges p = some idx) :
    encodeChunk merges ids = encodeChunk merges (merge ids p idx) := by
  have hlt : (merge ids p idx).length < ids.length :=
    merge_length_lt (pickMin_mem_pairs hpm) idx
  obtain ⟨n, hn⟩ : ∃ n, ids.length = n + 1 := ⟨ids.length - 1, by omega⟩
  rw [show encodeChunk merges ids = encodeLoopF merges ids.length ids from rfl,
    hn, encodeLoopF, if_neg h2, hpm]
  simp only
  rw [hr]
  simp only
  exact encodeLoopF_congr merges n (merge ids p idx).length _ (by omega) le_rfl

theorem encodeChunk_stop {merges : List ((Nat × Nat) × Nat)}
    {ids : List Nat} {p : Nat × Nat}
    (h2 : ¬ ids.length < 2)
    (hpm : pickMin merges (keysOf (get_stats ids)) = some p)
    (hr : rankOf merges p = none) :
    encodeChunk merges ids = ids := by
  obtain ⟨n, hn⟩ : ∃ n, ids.length = n + 1 := ⟨ids.length - 1, by omega⟩
  rw [show encodeChunk merges ids = encodeLoopF merges ids.length ids from rfl,
    hn, encodeLoopF, if_neg h2, hpm]
  simp only
  rw [hr]

theorem encodeLoopF_post (merges : List ((Nat × Nat) × Nat)) :
    ∀ fuel ids, ids.length ≤ fuel →
      (encodeLoopF merges fuel ids).length < 2 ∨
        ∀ q ∈ pairsOf (encodeLoopF merges fuel ids),
          rankOf merges q = none := by
  intro fuel
  induction fuel with
  | zero =>
    intro ids h
    have : ids = [] := List.eq_nil_of_length_eq_zero (by omega)
    subst this
    rw [encodeLoopF_nil]
    exact Or.inl (by simp)
  | succ fuel ih =>
    intro ids h
    rw [encodeLoopF]
    by_cases hlen : ids.length < 2
    · rw [if_pos hlen]
      exact Or.inl hlen
    · rw [if_neg hlen]
      cases hpm : pickMin merges (keysOf (get_stats ids)) with
      | none =>
        exfalso
        cases hK : keysOf (get_stats ids) with
        | nil =>
          have hs : get_stats ids = [] := keysOf_eq_nil hK
          have hp : pairsOf ids ≠ [] := pairsOf_ne_nil (by omega)
          match hpp : pairsOf ids, hp with
          | q :: t, _ =>
            have : q ∈ keysOf (get_stats ids) :=
              mem_keys_stats_of_mem_pairs (by rw [hpp]; simp)
            rw [hK] at this
            simp at this
        | cons q t => rw [hK] at hpm; simp [pickMin] at hpm
      | some p =>
        simp only
        cases hr : rankOf merges p with
        | none =>
          refine Or.inr ?_
          intro q hq
          have hK : keysOf (get_stats ids) ≠ [] := by
            intro hnil
            rw [hnil] at hpm
            simp [pickMin] at hpm
          match hKs : keysOf (get_stats ids), hK with
          | k :: t, _ =>
            rw [hKs] at hpm
            rw [show pickMin merges (k :: t) =
              some (pickMinGo merges k t) from rfl] at hpm
            have hp2 : rankOf merges (pickMinGo merges k t) = none := by
              rw [Option.some.inj hpm]; exact hr
            obtain ⟨hk, hall⟩ := pickMinGo_none k hp2
            have hqK : q ∈ keysOf (get_stats ids) :=
              mem_keys_stats_of_mem_pairs hq
            rw [hKs] at hqK
            rcases List.mem_cons.mp hqK with hqk | hqt
            · rw [hqk]; exact hk
            · exact hall q hqt
        | some idx =>
          simp only
          have hlt : (merge ids p idx).length < ids.length :=
            merge_length_lt (pickMin_mem_pairs hpm) idx
          exact ih (merge ids p idx) (by omega)

/-! Lemmas about the training loop. -/

theorem getElem?_eq_some_getD {l : List (List Nat)} {a : Nat}
    (h : a < l.length) : l[a]? = some (l.getD a []) := by
  rw [List.getD_eq_getElem?_getD, List.getElem?_eq_getElem h]
  rfl

theorem trainStep_inv {i : Nat} {ids : List Nat}
    {merges : List ((Nat × Nat) × Nat)} {vocab : List (List Nat)}
    {p : Nat × Nat} {c : Nat} (hinv : TrainInv i ids merges vocab)
    (hsp : selectPair ids = some (p, c)) :
    TrainInv (i + 1) (merge ids p (256 + i)) (merges ++ [(p, 256 + i)])
      (vocab ++ [vocab.getD p.1 [] ++ vocab.getD p.2 []]) := by
  obtain ⟨hvl, hml, hbase, hok, hrank, hids, hmb⟩ := hinv
  have hpp : p ∈ pairsOf ids := selectPair_mem_pairs hsp
  have hp1 : p.1 < vocab.length := by
    obtain ⟨h1, -⟩ := List.of_mem_zip hpp
    exact hids _ h1
  have hp2 : p.2 < vocab.length := by
    obtain ⟨-, h2⟩ := List.of_mem_zip hpp
    exact hids _ (List.mem_of_mem_tail h2)
  have hlen2 : (vocab ++ [vocab.getD p.1 [] ++ vocab.getD p.2 []]).length =
      256 + (i + 1) := by simp [hvl]; omega
  refine ⟨hlen2, by simp [hml], ?_, ?_, ?_, ?_, ?_⟩
  · intro j hj
    rw [List.getElem?_append_left (by omega), hbase j hj]
  · intro e he
    rcases List.mem_append.mp he with he | he
    · obtain ⟨va, vb, h1, h2, h3⟩ := hok e he
      obtain ⟨b1, b2, b3⟩ := hmb e he
      exact ⟨va, vb, by rw [List.getElem?_append_left (by omega)]; exact h1,
        by rw [List.getElem?_append_left (by omega)]; exact h2,
        by rw [List.getElem?_append_left (by omega)]; exact h3⟩
    · rw [List.mem_singleton] at he
      subst he
      refine ⟨vocab.getD p.1 [], vocab.getD p.2 [], ?_, ?_, ?_⟩
      · rw [List.getElem?_append_left (by exact hp1)]
        exact getElem?_eq_some_getD hp1
      · rw [List.getElem?_append_left (by exact hp2)]
        exact getElem?_eq_some_getD hp2
      · rw [show (256 : Nat) + i = vocab.length from hvl.symm]
        exact List.getElem?_concat_length ..
  · intro k e hk
    by_cases hkl : k < merges.length
    · rw [List.getElem?_append_left hkl] at hk
      exact hrank k e hk
    · rw [List.getElem?_append_right (by omega)] at hk
      have hk0 : k - merges.length = 0 := by
        by_contra hne
        have hlen1 : ([(p, 256 + i)] : List ((Nat × Nat) × Nat)).length ≤
            k - merges.length := by simp; omega
        rw [List.getElem?_eq_none hlen1] at hk
        exact Option.noConfusion hk
      rw [hk0] at hk
      simp at hk
      rw [← hk]
      omega
  · intro x hx
    rcases merge_mem hx with hx | hx
    · have := hids x hx
      simp [hvl] at this ⊢
      omega
    · simp [hx, hvl]
  · intro e he
    rcases List.mem_append.mp he with he | he
    · obtain ⟨b1, b2, b3⟩ := hmb e he
      simp at hlen2 ⊢
      omega
    · rw [List.mem_singleton] at he
      subst he
      simp at hlen2 ⊢
      omega

theorem trainLoop_inv :
    ∀ (fuel i : Nat) (ids : List Nat) (merges : List ((Nat × Nat) × Nat))
      (vocab : List (List Nat)), TrainInv i ids merges vocab →
      ∃ i2 ids2, TrainInv i2 ids2 (trainLoop fuel i ids merges vocab).1
        (trainLoop fuel i ids merges vocab).2 := by
  intro fuel
  induction fuel with
  | zero => intro i ids merges vocab hinv; exact ⟨i, ids, hinv⟩
  | succ fuel ih =>
    intro i ids merges vocab hinv
    rw [trainLoop]
    cases hsp : selectPair ids with
    | none => exact ⟨i, ids, hinv⟩
    | some e =>
      obtain ⟨p, c⟩ := e
      simp only
      exact ih (i + 1) _ _ _ (trainStep_inv hinv hsp)

theorem chunk_mem_text {cc : CharClass} {text m : List Nat} {y : Nat}
    (hm : m ∈ findall cc text) (hy : y ∈ m) : y ∈ text := by
  rw [← findall_flatten cc text]
  exact List.mem_flatten.mpr ⟨m, hm, hy⟩

theorem baseVocab_length : baseVocab.length = 256 := by
  simp [baseVocab]

theorem baseVocab_getElem (j : Nat) (hj : j < 256) :
    baseVocab[j]? = some [j] := by
  rw [baseVocab, List.getElem?_map, List.getElem?_range hj]
  rfl

theorem allTokens_lt {cc : CharClass} {text : List Nat}
    (htext : ∀ c ∈ text, c < 0x110000) :
    ∀ x ∈ ((findall cc text).map utf8Encode).flatten, x < 256 := by
  intro x hx
  obtain ⟨bs, hbs, hxbs⟩ := List.mem_flatten.mp hx
  obtain ⟨m, hm, hbm⟩ := List.mem_map.mp hbs
  subst hbm
  obtain ⟨c, hc, hxc⟩ := List.mem_flatMap.mp hxbs
  exact utf8EncodeCp_lt c (htext c (chunk_mem_text hm hc)) x hxc

theorem train_inv {cc : CharClass} {vs : Nat} {text : List Nat}
    (htext : ∀ c ∈ text, c < 0x110000) :
    ∃ i2 ids2, TrainInv i2 ids2 (train cc vs text).merges
      (train cc vs text).vocab := by
  have h := trainLoop_inv (vs - 256) 0
    (((findall cc text).map utf8Encode).flatten) [] baseVocab
    ⟨by simp [baseVocab_length], rfl, fun j hj => baseVocab_getElem j hj,
      by intro e he; simp at he, by intro k e hk; simp at hk,
      by intro x hx; rw [baseVocab_length]; exact allTokens_lt htext x hx,
      by intro e he; simp at he⟩
  simpa [train] using h

/-! Lemmas about the decoder and the full encode / decode pipeline. -/

theorem decodeBytes_none_iff {vocab : List (List Nat)} {ids : List Nat} :
    decodeBytes vocab ids = none ↔ ∃ i ∈ ids, vocab[i]? = none := by
  induction ids with
  | nil => simp [decodeBytes]
  | cons i rest ih =>
    rw [decodeBytes_cons]
    cases hv : vocab[i]? with
    | none =>
      exact iff_of_true rfl ⟨i, List.mem_cons_self .., hv⟩
    | some v =>
      cases hdb : decodeBytes vocab rest with
      | none =>
        refine iff_of_true rfl ?_
        obtain ⟨j, hj, hjn⟩ := ih.mp hdb
        exact ⟨j, List.mem_cons_of_mem _ hj, hjn⟩
      | some r =>
        refine iff_of_false (by simp) ?_
        rintro ⟨j, hj, hjn⟩
        rcases List.mem_cons.mp hj with hj | hj
        · rw [hj] at hjn; rw [hv] at hjn; exact Option.noConfusion hjn
        · have : decodeBytes vocab rest = none := ih.mpr ⟨j, hj, hjn⟩
          rw [this] at hdb
          exact Option.noConfusion hdb

theorem decodeBytes_base {vocab : List (List Nat)} :
    ∀ {ids : List Nat}, (∀ b ∈ ids, vocab[b]? = some [b]) →
      decodeBytes vocab ids = some ids := by
  intro ids
  induction ids with
  | nil => intro _; rfl
  | cons b rest ih =>
    intro h
    rw [decodeBytes_cons, h b (List.mem_cons_self ..),
      ih (fun x hx => h x (List.mem_cons_of_mem _ hx))]
    rfl

theorem decodeBytes_append (vocab : List (List Nat)) (xs ys : List Nat) :
    decodeBytes vocab (xs ++ ys) =
      (decodeBytes vocab xs).bind
        (fun a => (decodeBytes vocab ys).map (fun b => a ++ b)) := by
  induction xs with
  | nil =>
    rw [List.nil_append]
    cases hys : decodeBytes vocab ys <;> simp [decodeBytes, hys]
  | cons i rest ih =>
    rw [List.cons_append, decodeBytes_cons, decodeBytes_cons, ih]
    cases vocab[i]? <;> cases decodeBytes vocab rest <;>
      cases decodeBytes vocab ys <;> simp

theorem rankOf_entry {merges : List ((Nat × Nat) × Nat)} {p : Nat × Nat}
    {idx : Nat} (h : rankOf merges p = some idx) :
    ∃ e ∈ merges, e.1 = p ∧ e.2 = idx := by
  unfold rankOf at h
  cases hf : merges.find? (fun e => decide (e.1 = p)) with
  | none => rw [hf] at h; exact Option.noConfusion h
  | some e =>
    rw [hf] at h
    refine ⟨e, List.mem_of_find?_eq_some hf, ?_, ?_⟩
    · have := List.find?_some hf
      simpa using this
    · simpa using h

theorem encodeLoopF_decodeBytes {vocab : List (List Nat)}
    {merges : List ((Nat × Nat) × Nat)} (hok : MergesOK vocab merges) :
    ∀ fuel ids, decodeBytes vocab (encodeLoopF merges fuel ids) =
      decodeBytes vocab ids := by
  intro fuel
  induction fuel with
  | zero => intro ids; rfl
  | succ fuel ih =>
    intro ids
    rw [encodeLoopF]
    by_cases hlen : ids.length < 2
    · rw [if_pos hlen]
    · rw [if_neg hlen]
      cases hpm : pickMin merges (keysOf (get_stats ids)) with
      | none => rfl
      | some p =>
        simp only
        cases hr : rankOf merges p with
        | none => rfl
        | some idx =>
          simp only
          obtain ⟨e, he, hep, heidx⟩ := rankOf_entry hr
          obtain ⟨va, vb, h1, h2, h3⟩ := hok e he
          rw [hep] at h1 h2
          rw [heidx] at h3
          rw [ih (merge ids p idx), merge_decodeBytes h1 h2 h3]

theorem encodeLoopF_mem_lt {merges : List ((Nat × Nat) × Nat)} {L : Nat}
    (hm : ∀ e ∈ merges, e.2 < L) :
    ∀ fuel ids, (∀ x ∈ ids, x < L) →
      ∀ x ∈ encodeLoopF merges fuel ids, x < L := by
  intro fuel
  induction fuel with
  | zero => intro ids h x hx; exact h x hx
  | succ fuel ih =>
    intro ids h x hx
    rw [encodeLoopF] at hx
    by_cases hlen : ids.length < 2
    · rw [if_pos hlen] at hx; exact h x hx
    · rw [if_neg hlen] at hx
      cases hpm : pickMin merges (keysOf (get_stats ids)) with
      | none => rw [hpm] at hx; exact h x hx
      | some p =>
        rw [hpm] at hx
        simp only at hx
        cases hr : rankOf merges p with
        | none => rw [hr] at hx; exact h x hx
        | some idx =>
          rw [hr] at hx
          simp only at hx
          refine ih (merge ids p idx) ?_ x hx
          intro y hy
          rcases merge_mem hy with hy | hy
          · exact h y hy
          · obtain ⟨e, he, -, heidx⟩ := rankOf_entry hr
            rw [hy, ← heidx]
            exact hm e he

theorem utf8Encode_append (s t : List Nat) :
    utf8Encode (s ++ t) = utf8Encode s ++ utf8Encode t := by
  simp [utf8Encode]

theorem utf8Encode_flatten (chunks : List (List Nat)) :
    utf8Encode chunks.flatten = (chunks.map utf8Encode).flatten := by
  induction chunks with
  | nil => rfl
  | cons m rest ih =>
    rw [List.flatten_cons, utf8Encode_append, List.map_cons,
      List.flatten_cons, ih]

theorem encode_decodeBytes {t : Tok} (hok : MergesOK t.vocab t.merges)
    (hbase : ∀ j, j < 256 → t.vocab[j]? = some [j]) {T : List Nat}
    (hT : ∀ c ∈ T, c < 0x110000) :
    decodeBytes t.vocab (encode t T) = some (utf8Encode T) := by
  have hchunks : ∀ chunks : List (List Nat),
      (∀ m ∈ chunks, ∀ c ∈ m, c < 0x110000) →
      decodeBytes t.vocab
        (chunks.flatMap (fun ch => encodeChunk t.merges (utf8Encode ch))) =
        some ((chunks.map utf8Encode).flatten) := by
    intro chunks
    induction chunks with
    | nil => intro _; rfl
    | cons m rest ih =>
      intro h
      rw [List.flatMap_cons, decodeBytes_append,
        show encodeChunk t.merges (utf8Encode m) =
          encodeLoopF t.merges (utf8Encode m).length (utf8Encode m) from rfl,
        encodeLoopF_decodeBytes hok,
        decodeBytes_base (fun b hb => by
          obtain ⟨c, hc, hbc⟩ := List.mem_flatMap.mp hb
          exact hbase b (utf8EncodeCp_lt c (h m (List.mem_cons_self ..) c hc)
            b hbc)),
        ih (fun m2 hm2 => h m2 (List.mem_cons_of_mem _ hm2))]
      rfl
  rw [encode, hchunks (findall t.cc T)
    (fun m hm c hc => hT c (chunk_mem_text hm hc))]
  rw [← utf8Encode_flatten, findall_flatten]

theorem decode_encode_of_inv {t : Tok} (hok : MergesOK t.vocab t.merges)
    (hbase : ∀ j, j < 256 → t.vocab[j]? = some [j]) {T : List Nat}
    (hT : ValidText T) : decode t (encode t T) = some T := by
  have hT2 : ∀ c ∈ T, c < 0x110000 := fun c hc => (hT c hc).1
  rw [decode, encode_decodeBytes hok hbase hT2]
  simp [utf8DecodeF_utf8Encode hT]

theorem encode_length_le (t : Tok) (T : List Nat) :
    (encode t T).length ≤ (utf8Encode T).length := by
  have hchunks : ∀ chunks : List (List Nat),
      (chunks.flatMap (fun ch => encodeChunk t.merges (utf8Encode ch))).length
        ≤ ((chunks.map utf8Encode).flatten).length := by
    intro chunks
    induction chunks with
    | nil => exact Nat.le_refl _
    | cons m rest ih =>
      rw [List.flatMap_cons, List.map_cons, List.flatten_cons,
        List.length_append, List.length_append]
      have h1 : (encodeChunk t.merges (utf8Encode m)).length ≤
          (utf8Encode m).length := encodeLoopF_length_le ..
      omega
  rw [encode]
  have h2 : utf8Encode T = (List.map utf8Encode (findall t.cc T)).flatten := by
    rw [← utf8Encode_flatten, findall_flatten]
  rw [h2]
  exact hchunks (findall t.cc T)

theorem encode_mem_lt {t : Tok}
    (hmb : ∀ e ∈ t.merges, e.2 < t.vocab.length)
    (hvlen : 256 ≤ t.vocab.length) {T : List Nat}
    (hT : ∀ c ∈ T, c < 0x110000) :
    ∀ x ∈ encode t T, x < t.vocab.length := by
  intro x hx
  rw [encode] at hx
  obtain ⟨m, hm, hxm⟩ := List.mem_flatMap.mp hx
  refine encodeLoopF_mem_lt hmb (utf8Encode m).length (utf8Encode m) ?_ x hxm
  intro b hb
  obtain ⟨c, hc, hbc⟩ := List.mem_flatMap.mp hb
  have := utf8EncodeCp_lt c (hT c (chunk_mem_text hm hc)) b hbc
  omega

/-! Refinement of the Trainer's pair selection to the spec's contract. -/

theorem maxNat_eq_of_mem_iff {l₁ l₂ : List Nat}
    (h : ∀ x, x ∈ l₁ ↔ x ∈ l₂) : maxNat l₁ = maxNat l₂ :=
  le_antisymm (maxNat_le fun x hx => le_maxNat ((h x).mp hx))
    (maxNat_le fun x hx => le_maxNat ((h x).mpr hx))

theorem maxCntS_stats (ids : List Nat) :
    maxCntS (get_stats ids) = maxCount (pairsOf ids) := by
  rw [maxCntS, get_stats_eq, List.map_map, maxCount]
  refine maxNat_eq_of_mem_iff ?_
  intro x
  simp only [List.mem_map, Function.comp]
  constructor
  · rintro ⟨p, hp, hx⟩
    exact ⟨p, mem_dedupF.mp hp, hx⟩
  · rintro ⟨p, hp, hx⟩
    exact ⟨p, mem_dedupF.mpr hp, hx⟩

theorem selectPair_eq_specSelect (ids : List Nat) :
    (selectPair ids).map Prod.fst = specSelect ids := by
  rw [selectPair, pickMax_eq_find, maxCntS_stats, get_stats_eq,
    List.find?_map]
  rw [show ((fun e : (Nat × Nat) × Nat =>
      decide (e.2 = maxCount (pairsOf ids))) ∘
      (fun p => (p, (pairsOf ids).count p))) = (fun p =>
      decide ((pairsOf ids).count p = maxCount (pairsOf ids))) from rfl]
  rw [find?_dedupF, Option.map_map]
  rw [show (Prod.fst ∘ fun p : Nat × Nat =>
      (p, (pairsOf ids).count p)) = id from rfl]
  rw [Option.map_id, specSelect]
  rfl

/-! Refinement of the Encoder's pair selection to the spec's contract. -/

theorem find?_index {α : Type} {pred : α → Bool} :
    ∀ {l : List α} {e : α}, l.find? pred = some e →
      ∃ k, l[k]? = some e ∧ pred e = true ∧
        ∀ (j : Nat) (e2 : α), j < k → l[j]? = some e2 →
          pred e2 = false := by
  intro l
  induction l with
  | nil => intro e h; simp at h
  | cons a t ih =>
    intro e h
    rw [List.find?_cons] at h
    cases hpa : pred a with
    | true =>
      rw [hpa] at h
      have he : a = e := Option.some.inj h
      subst he
      exact ⟨0, by simp, hpa, fun j e2 hj _ => absurd hj (by omega)⟩
    | false =>
      rw [hpa] at h
      obtain ⟨k, hk, hpe, hbef⟩ := ih h
      refine ⟨k + 1, by simpa using hk, hpe, ?_⟩
      intro j e2 hj hje
      cases j with
      | zero =>
        simp at hje
        rw [← hje]
        exact hpa
      | succ j =>
        simp at hje
        exact hbef j e2 (by omega) hje

theorem find?_of_index {α : Type} {pred : α → Bool} :
    ∀ {l : List α} {k : Nat} {e : α}, l[k]? = some e → pred e = true →
      (∀ (j : Nat) (e2 : α), j < k → l[j]? = some e2 → pred e2 = false) →
      l.find? pred = some e := by
  intro l
  induction l with
  | nil => intro k e hk; simp at hk
  | cons a t ih =>
    intro k e hk hpe hbef
    cases k with
    | zero =>
      simp at hk
      rw [List.find?_cons, hk, hpe]
    | succ k =>
      simp at hk
      have hpa : pred a = false := hbef 0 a (by omega) (by simp)
      rw [List.find?_cons, hpa]
      refine ih hk hpe ?_
      intro j e2 hj hje
      exact hbef (j + 1) e2 (by omega) (by simpa using hje)

theorem ltRank_asymm {r1 r2 : Option Nat} (h : ltRank r1 r2 = true) :
    ltRank r2 r1 = false := by
  cases r1 <;> cases r2 <;> simp_all [ltRank] <;> omega

theorem pickMinGo_unique {merges : List ((Nat × Nat) × Nat)} {p : Nat × Nat}
    {v : Nat} (hv : rankOf merges p = some v) :
    ∀ l best,
      (∀ q ∈ best :: l, q ≠ p →
        ltRank (rankOf merges p) (rankOf merges q) = true) →
      p ∈ best :: l → pickMinGo merges best l = p := by
  intro l
  induction l with
  | nil =>
    intro best hmin hp
    simp at hp
    simp [pickMinGo, hp]
  | cons q t ih =>
    intro best hmin hp
    simp only [pickMinGo]
    have hsub : ∀ r ∈ (if ltRank (rankOf merges q) (rankOf merges best)
        then q else best) :: t, r ≠ p →
        ltRank (rankOf merges p) (rankOf merges r) = true := by
      intro r hr hrp
      rcases List.mem_cons.mp hr with hr | hr
      · by_cases hc : ltRank (rankOf merges q) (rankOf merges best) = true
        · rw [if_pos hc] at hr
          exact hmin r (by rw [hr]; simp) hrp
        · rw [if_neg hc] at hr
          exact hmin r (by rw [hr]; simp) hrp
      · exact hmin r (by simp [hr]) hrp
    have hpmem : p ∈ (if ltRank (rankOf merges q) (rankOf merges best)
        then q else best) :: t := by
      rcases List.mem_cons.mp hp with hp | hp
      · -- p = best
        by_cases hc : ltRank (rankOf merges q) (rankOf merges best) = true
        · rw [if_pos hc]
          by_cases hqp : q = p
          · rw [hqp]; simp
          · have hlt := hmin q (by simp) hqp
            have hc2 : ltRank (rankOf merges q) (rankOf merges p) = true := by
              rw [hp]; exact hc
            rw [ltRank_asymm hlt] at hc2
            exact absurd hc2 (by simp)
        · rw [if_neg hc]
          rw [hp]
          simp
      · rcases List.mem_cons.mp hp with hp | hp
        · -- p = q
          by_cases hbp : best = p
          · by_cases hc : ltRank (rankOf merges q) (rankOf merges best) = true
            · rw [if_pos hc, hp]; simp
            · rw [if_neg hc, hbp]; simp
          · have hlt := hmin best (by simp) hbp
            have hc : ltRank (rankOf merges q) (rankOf merges best) = true := by
              rw [← hp]; exact hlt
            rw [if_pos hc, hp]
            simp
        · simp [hp]
    exact ih _ hsub hpmem

theorem pickMin_unique {merges : List ((Nat × Nat) × Nat)}
    {K : List (Nat × Nat)} {p : Nat × Nat} {v : Nat}
    (hv : rankOf merges p = some v) (hp : p ∈ K)
    (hmin : ∀ q ∈ K, q ≠ p →
      ltRank (rankOf merges p) (rankOf merges q) = true) :
    pickMin merges K = some p := by
  cases K with
  | nil => simp at hp
  | cons k t =>
    rw [show pickMin merges (k :: t) = some (pickMinGo merges k t) from rfl]
    rw [pickMinGo_unique hv t k hmin hp]

theorem encodeChunk_stop_nopair {merges : List ((Nat × Nat) × Nat)}
    {ids : List Nat} (h2 : ¬ ids.length < 2)
    (hpm : pickMin merges (keysOf (get_stats ids)) = none) :
    encodeChunk merges ids = ids := by
  obtain ⟨n, hn⟩ : ∃ n, ids.length = n + 1 := ⟨ids.length - 1, by omega⟩
  rw [show encodeChunk merges ids = encodeLoopF merges ids.length ids from rfl,
    hn, encodeLoopF, if_neg h2, hpm]

theorem step_of_find {merges : List ((Nat × Nat) × Nat)}
    (hrank : RankMono merges) {ids : List Nat} {a b v : Nat}
    (hf : merges.find? (fun e => decide (e.1 ∈ pairsOf ids)) =
      some ((a, b), v)) :
    pickMin merges (keysOf (get_stats ids)) = some (a, b) ∧
      rankOf merges (a, b) = some v := by
  obtain ⟨k0, hk0, hpe, hbef⟩ := find?_index hf
  have hab : (a, b) ∈ pairsOf ids := by simpa using hpe
  have hrab : rankOf merges (a, b) = some v := by
    unfold rankOf
    rw [find?_of_index hk0 (by simp) ?_]
    · rfl
    · intro j e2 hj hje
      have hb2 := hbef j e2 hj hje
      simp only [decide_eq_false_iff_not] at hb2 ⊢
      intro he
      exact hb2 (he ▸ hab)
  refine ⟨?_, hrab⟩
  refine pickMin_unique hrab (mem_keys_stats_of_mem_pairs hab) ?_
  intro q hq hqne
  rw [hrab]
  cases hrq : rankOf merges q with
  | none => rfl
  | some w =>
    have hq_pairs : q ∈ pairsOf ids := by
      rw [get_stats_keys] at hq
      exact mem_dedupF.mp hq
    unfold rankOf at hrq
    cases hfq : merges.find? (fun e => decide (e.1 = q)) with
    | none => rw [hfq] at hrq; exact Option.noConfusion hrq
    | some e2 =>
      rw [hfq] at hrq
      have he2v : e2.2 = w := by simpa using hrq
      have he2k : e2.1 = q := by simpa using List.find?_some hfq
      obtain ⟨kq, hkq, -, -⟩ := find?_index hfq
      have hk0kq : k0 < kq := by
        rcases Nat.lt_trichotomy k0 kq with h | h | h
        · exact h
        · exfalso
          rw [← h] at hkq
          rw [hk0] at hkq
          have he2 : e2 = ((a, b), v) := (Option.some.inj hkq).symm
          apply hqne
          rw [← he2k, he2]
        · exfalso
          have hb2 := hbef kq e2 h hkq
          simp only [decide_eq_false_iff_not] at hb2
          exact hb2 (he2k ▸ hq_pairs)
      have hv256 : v = 256 + k0 := by
        have := hrank k0 ((a, b), v) hk0
        simpa using this
      have hw256 : w = 256 + kq := by
        have := hrank kq e2 hkq
        omega
      simp only [ltRank, decide_eq_true_eq]
      omega

/-! Claim theorems. -/

/-- C1: for every valid UTF-8 text `T` and every tokenizer instance trained
on some corpus (a Python string, i.e. code points below `0x110000`) with
some target vocabulary size (at least 256, as enforced by the constructor),
decoding the result of encoding `T` with that instance's vocabulary and
merge table returns exactly `T`: `decode (encode T) = T`. -/
theorem claim_C1 (cc : CharClass) (vs : Nat) (corpus : List Nat)
    (hvs : 256 ≤ vs) (hcorpus : ∀ c ∈ corpus, c < 0x110000)
    (T : List Nat) (hT : ValidText T) :
    decode (train cc vs corpus) (encode (train cc vs corpus) T) = some T := by
  obtain ⟨i2, ids2, hvl, hml, hbase, hok, hrank, hids, hmb⟩ :=
    @train_inv cc vs corpus hcorpus
  exact decode_encode_of_inv hok hbase hT

theorem claim_C1_witness :
    256 ≤ 257 ∧ (∀ c ∈ [97, 98], c < 0x110000) ∧
      ValidText [97, 98] ∧
      decode (train asciiCC 257 [97, 98])
        (encode (train asciiCC 257 [97, 98]) [97, 98]) = some [97, 98] :=
  ⟨by decide, by decide, by decide,
    claim_C1 asciiCC 257 [97, 98] (by decide) (by decide) [97, 98]
      (by decide)⟩

/-- C2: `decode ids` fails (returns `none`, modelling the `KeyError` the
spec calls `InvalidTokenID`) if and only if some ID in `ids` has no entry
in the vocabulary; on failure the whole decode aborts with no partial
output (the result is `none`, not a partial string), and this is the only
error condition of decode.  In particular decoding `[99999]` against any
freshly constructed instance fails. -/
theorem claim_C2 :
    (∀ (t : Tok) (ids : List Nat),
      decode t ids = none ↔ ∃ i ∈ ids, t.vocab[i]? = none) ∧
    (∀ (vs : Nat) (cc : CharClass) (t : Tok), mkTokenizer vs cc = some t →
      decode t [99999] = none) := by
  constructor
  · intro t ids
    rw [decode]
    cases hdb : decodeBytes t.vocab ids with
    | none => exact iff_of_true rfl (decodeBytes_none_iff.mp hdb)
    | some bs =>
      refine iff_of_false (by simp) ?_
      intro hex
      have := decodeBytes_none_iff.mpr hex
      rw [this] at hdb
      exact Option.noConfusion hdb
  · intro vs cc t hmk
    unfold mkTokenizer at hmk
    by_cases hlt : vs < 256
    · rw [if_pos hlt] at hmk
      exact Option.noConfusion hmk
    · rw [if_neg hlt] at hmk
      have ht := Option.some.inj hmk
      rw [← ht, decode]
      have hdb : decodeBytes baseVocab [99999] = none :=
        decodeBytes_none_iff.mpr ⟨99999, by simp,
          List.getElem?_eq_none (by rw [baseVocab_length]; omega)⟩
      rw [show (Tok.mk vs cc [] baseVocab).vocab = baseVocab from rfl, hdb]
      rfl

theorem claim_C2_witness :
    (decode (train asciiCC 257 [97, 98]) [99999] = none ↔
      ∃ i ∈ [99999], (train asciiCC 257 [97, 98]).vocab[i]? = none) ∧
    mkTokenizer 5000 asciiCC = some ⟨5000, asciiCC, [], baseVocab⟩ ∧
    decode (⟨5000, asciiCC, [], baseVocab⟩ : Tok) [99999] = none :=
  ⟨claim_C2.1 (train asciiCC 257 [97, 98]) [99999], rfl,
    claim_C2.2 5000 asciiCC ⟨5000, asciiCC, [], baseVocab⟩ rfl⟩

/-- C3: constructing a tokenizer with a target vocabulary size below 256
fails (the source raises `ValueError`, the spec's `ConfigurationError`) at
construction time; in particular `vocab_size = 255` is rejected, while any
target of at least 256 is accepted, and the accepted instance is untouched
by any training (empty merge table, base vocabulary only) — no corpus is
even available at construction time. -/
theorem claim_C3 :
    (∀ cc, mkTokenizer 255 cc = none) ∧
    (∀ vs cc, vs < 256 → mkTokenizer vs cc = none) ∧
    (∀ vs cc, 256 ≤ vs → ∃ t, mkTokenizer vs cc = some t ∧
      t.vocab_size = vs ∧ t.merges = [] ∧ t.vocab = baseVocab) := by
  refine ⟨fun cc => ?_, fun vs cc h => ?_, fun vs cc h => ?_⟩
  · rw [mkTokenizer, if_pos (by omega)]
  · rw [mkTokenizer, if_pos h]
  · rw [mkTokenizer, if_neg (by omega)]
    exact ⟨_, rfl, rfl, rfl, rfl⟩

theorem claim_C3_witness :
    255 < 256 ∧ mkTokenizer 255 asciiCC = none ∧ 256 ≤ 256 ∧
      ∃ t, mkTokenizer 256 asciiCC = some t ∧ t.vocab_size = 256 ∧
        t.merges = [] ∧ t.vocab = baseVocab :=
  ⟨by decide, claim_C3.1 asciiCC, by decide,
    claim_C3.2.2 256 asciiCC (by decide)⟩

/-- C4: for every input string the segmenter produces a finite sequence of
non-empty chunks whose in-order concatenation is exactly the original
string, and the empty string yields the empty chunk sequence.  The
segmenter is a total function (deterministic, never fails), for every
character classifier. -/
theorem claim_C4 (cc : CharClass) (s : List Nat) :
    (∀ m ∈ findall cc s, m ≠ []) ∧ (findall cc s).flatten = s ∧
      findall cc [] = [] :=
  ⟨findall_nonempty cc s, findall_flatten cc s, rfl⟩

/-- C5 (counterexample): for the pattern `a a a` with pair `(a, a)` the
engine performs exactly one merge — the output is `[r, a]`, i.e. the first
two symbols merge and the third survives — so the claim's "only the first
and third are merged, not the second", which requires two merged
occurrences, is false on this input. -/
theorem claim_C5_counterexample :
    merge [5, 5, 5] (5, 5) 6 = [6, 5] ∧
      ¬ (merge [5, 5, 5] (5, 5) 6).count 6 = 2 := by
  exact ⟨by decide, by decide⟩

/-- C5 (amended): the merge engine replaces every non-overlapping
left-to-right occurrence of the pair by the replacement symbol, advancing
two positions on a match and one otherwise; hence for the pattern `a a a`
only the first (leftmost) occurrence is merged and the third symbol
survives unmerged, while for `a a a a` the first and third occurrences
merge and the overlapping second does not; the output length is at most
the input length. -/
theorem claim_C5 :
    (∀ (t : List Nat) (p : Nat × Nat) (idx : Nat),
      merge (p.1 :: p.2 :: t) p idx = idx :: merge t p idx) ∧
    (∀ (a b : Nat) (t : List Nat) (p : Nat × Nat) (idx : Nat),
      ¬(a = p.1 ∧ b = p.2) →
      merge (a :: b :: t) p idx = a :: merge (b :: t) p idx) ∧
    (∀ (p : Nat × Nat) (idx : Nat), merge [] p idx = []) ∧
    (∀ (a : Nat) (p : Nat × Nat) (idx : Nat), merge [a] p idx = [a]) ∧
    (∀ (ids : List Nat) (p : Nat × Nat) (idx : Nat),
      (merge ids p idx).length ≤ ids.length) ∧
    merge [5, 5, 5] (5, 5) 6 = [6, 5] ∧
    merge [5, 5, 5, 5] (5, 5) 6 = [6, 6] := by
  refine ⟨?_, ?_, ?_, ?_, merge_length_le, by decide, by decide⟩
  · intro t p idx
    rw [merge, if_pos ⟨rfl, rfl⟩]
  · intro a b t p idx h
    rw [merge, if_neg h]
  · intro p idx
    simp [merge]
  · intro a p idx
    simp [merge]

theorem claim_C5_witness :
    ¬((7 : Nat) = ((5, 5) : Nat × Nat).1 ∧ (8 : Nat) = ((5, 5) : Nat × Nat).2) ∧
      merge [7, 8] (5, 5) 9 = 7 :: merge [8] (5, 5) 9 :=
  ⟨by decide, claim_C5.2.1 7 8 [] (5, 5) 9 (by decide)⟩

/-- C6: at every training iteration the trainer's selection function
(`selectPair`, the `max(stats, key=stats.get)` the training loop consults)
returns, among all adjacent pairs of the current global sequence, the pair
with the strictly highest count, breaking ties in favour of the pair whose
first appearance in a single left-to-right scan of the sequence comes
first — stated as equality with the spec-side contract `specSelect`, the
first pair of the scan whose count attains the maximum. -/
theorem claim_C6 (ids : List Nat) :
    (selectPair ids).map Prod.fst = specSelect ids :=
  selectPair_eq_specSelect ids

/-- C7: during encoding of a chunk with a trained merge table, while the
sequence has length at least two, the encoder applies the merge rule that
is earliest-learned (lowest rank) among the rules whose pair is present in
the current sequence — i.e. the first entry of the rank-ordered merge
table whose key occurs adjacently — with its recorded replacement ID; when
no present pair has an entry the loop stops and returns the sequence
unchanged (unknown pairs are left unmerged, encoding is total and never
fails); and the loop's result is final: it has length below two or none of
its adjacent pairs has a table entry. -/
theorem claim_C7 (cc : CharClass) (vs : Nat) (corpus : List Nat)
    (hcorpus : ∀ c ∈ corpus, c < 0x110000) (ids : List Nat)
    (h2 : 2 ≤ ids.length) :
    (∀ a b v,
      (train cc vs corpus).merges.find?
          (fun e => decide (e.1 ∈ pairsOf ids)) = some ((a, b), v) →
      encodeChunk (train cc vs corpus).merges ids =
        encodeChunk (train cc vs corpus).merges (merge ids (a, b) v)) ∧
    ((train cc vs corpus).merges.find?
        (fun e => decide (e.1 ∈ pairsOf ids)) = none →
      encodeChunk (train cc vs corpus).merges ids = ids) ∧
    ((encodeChunk (train cc vs corpus).merges ids).length < 2 ∨
      ∀ q ∈ pairsOf (encodeChunk (train cc vs corpus).merges ids),
        rankOf (train cc vs corpus).merges q = none) := by
  obtain ⟨i2, ids2, hvl, hml, hbase, hok, hrank, hids, hmb⟩ :=
    @train_inv cc vs corpus hcorpus
  refine ⟨?_, ?_, encodeLoopF_post _ ids.length ids le_rfl⟩
  · intro a b v hf
    obtain ⟨hpm, hr⟩ := step_of_find hrank hf
    exact encodeChunk_step (by omega) hpm hr
  · intro hf
    cases hpm : pickMin (train cc vs corpus).merges
        (keysOf (get_stats ids)) with
    | none => exact encodeChunk_stop_nopair (by omega) hpm
    | some p =>
      have hrn : rankOf (train cc vs corpus).merges p = none := by
        cases hr : rankOf (train cc vs corpus).merges p with
        | none => rfl
        | some v =>
          exfalso
          obtain ⟨e, he, hep, -⟩ := rankOf_entry hr
          have hall := List.find?_eq_none.mp hf e he
          simp only [decide_eq_true_eq] at hall
          exact hall (hep ▸ pickMin_mem_pairs hpm)
      exact encodeChunk_stop (by omega) hpm hrn

theorem claim_C7_witness :
    (∀ c ∈ [97, 98], c < 0x110000) ∧
      2 ≤ ([97, 98, 99] : List Nat).length ∧
      (train asciiCC 257 [97, 98]).merges.find?
          (fun e => decide (e.1 ∈ pairsOf [97, 98, 99])) =
        some ((97, 98), 256) ∧
      encodeChunk (train asciiCC 257 [97, 98]).merges [97, 98, 99] =
        encodeChunk (train asciiCC 257 [97, 98]).merges
          (merge [97, 98, 99] (97, 98) 256) :=
  ⟨by decide, by decide, by decide,
    (claim_C7 asciiCC 257 [97, 98] (by decide) [97, 98, 99] (by decide)).1
      97 98 256 (by decide)⟩

/-- C8: for every trained instance (trained on a Python string corpus),
the vocabulary maps every base ID `i < 256` to the single byte `[i]` (the
base alphabet is never altered by training), and every merge-created ID
`v` recorded for a pair `(a, b)` maps to the byte concatenation of the
entries of `a` and `b`. -/
theorem claim_C8 (cc : CharClass) (vs : Nat) (corpus : List Nat)
    (hcorpus : ∀ c ∈ corpus, c < 0x110000) :
    (∀ i, i < 256 → (train cc vs corpus).vocab[i]? = some [i]) ∧
    (∀ a b v, ((a, b), v) ∈ (train cc vs corpus).merges →
      ∃ va vb, (train cc vs corpus).vocab[a]? = some va ∧
        (train cc vs corpus).vocab[b]? = some vb ∧
        (train cc vs corpus).vocab[v]? = some (va ++ vb)) := by
  obtain ⟨i2, ids2, hvl, hml, hbase, hok, hrank, hids, hmb⟩ :=
    @train_inv cc vs corpus hcorpus
  refine ⟨hbase, ?_⟩
  intro a b v hm
  have := hok ((a, b), v) hm
  simpa using this

theorem claim_C8_witness :
    (∀ c ∈ [97, 98], c < 0x110000) ∧ (97 : Nat) < 256 ∧
      (train asciiCC 257 [97, 98]).vocab[97]? = some [97] ∧
      ((97, 98), 256) ∈ (train asciiCC 257 [97, 98]).merges ∧
      ∃ va vb, (train asciiCC 257 [97, 98]).vocab[97]? = some va ∧
        (train asciiCC 257 [97, 98]).vocab[98]? = some vb ∧
        (train asciiCC 257 [97, 98]).vocab[256]? = some (va ++ vb) :=
  ⟨by decide, by decide,
    (claim_C8 asciiCC 257 [97, 98] (by decide)).1 97 (by decide),
    by decide,
    (claim_C8 asciiCC 257 [97, 98] (by decide)).2 97 98 256 (by decide)⟩

/-- C9: for every text `T` and every tokenizer (in particular every
trained one), the number of IDs produced by encoding `T` is at most the
number of bytes of the UTF-8 encoding of `T`. -/
theorem claim_C9 (t : Tok) (T : List Nat) :
    (encode t T).length ≤ (utf8Encode T).length :=
  encode_length_le t T

/-- C10: for every instance trained on a Python string corpus and every
Python string text `T`, every ID produced by `encode T` has a vocabulary
entry, so the decoder's missing-ID error branch cannot fire on any output
of `encode` from the same instance; likewise for a freshly constructed
instance. -/
theorem claim_C10 (cc : CharClass) (vs : Nat) (corpus : List Nat)
    (hcorpus : ∀ c ∈ corpus, c < 0x110000) (T : List Nat)
    (hT : ∀ c ∈ T, c < 0x110000) :
    (∀ x ∈ encode (train cc vs corpus) T,
      (train cc vs corpus).vocab[x]? ≠ none) ∧
    decodeBytes (train cc vs corpus).vocab
      (encode (train cc vs corpus) T) ≠ none ∧
    (∀ vs2 cc2 t0, mkTokenizer vs2 cc2 = some t0 →
      ∀ x ∈ encode t0 T, t0.vocab[x]? ≠ none) := by
  obtain ⟨i2, ids2, hvl, hml, hbase, hok, hrank, hids, hmb⟩ :=
    @train_inv cc vs corpus hcorpus
  have hb : ∀ e ∈ (train cc vs corpus).merges,
      e.2 < (train cc vs corpus).vocab.length := fun e he => (hmb e he).1
  have hlen : 256 ≤ (train cc vs corpus).vocab.length := by omega
  have hmem := encode_mem_lt hb hlen hT
  refine ⟨?_, ?_, ?_⟩
  · intro x hx hnone
    have := hmem x hx
    rw [List.getElem?_eq_none_iff] at hnone
    omega
  · intro hnone
    obtain ⟨i, hi, hin⟩ := decodeBytes_none_iff.mp hnone
    have := hmem i hi
    rw [List.getElem?_eq_none_iff] at hin
    omega
  · intro vs2 cc2 t0 hmk x hx hnone
    unfold mkTokenizer at hmk
    by_cases hlt : vs2 < 256
    · rw [if_pos hlt] at hmk
      exact Option.noConfusion hmk
    · rw [if_neg hlt] at hmk
      have ht := Option.some.inj hmk
      rw [← ht] at hx hnone
      have hb0 : ∀ e ∈ (Tok.mk vs2 cc2 [] baseVocab).merges,
          e.2 < (Tok.mk vs2 cc2 [] baseVocab).vocab.length := by
        intro e he
        simp at he
      have hlen0 : 256 ≤ (Tok.mk vs2 cc2 [] baseVocab).vocab.length := by
        rw [show (Tok.mk vs2 cc2 [] baseVocab).vocab = baseVocab from rfl,
          baseVocab_length]
      have := encode_mem_lt hb0 hlen0 hT x hx
      rw [List.getElem?_eq_none_iff] at hnone
      omega

theorem claim_C10_witness :
    (∀ c ∈ [97, 98], c < 0x110000) ∧ (∀ c ∈ [104, 105], c < 0x110000) ∧
      decodeBytes (train asciiCC 257 [97, 98]).vocab
        (encode (train asciiCC 257 [97, 98]) [104, 105]) ≠ none :=
  ⟨by decide, by decide,
    (claim_C10 asciiCC 257 [97, 98] (by decide) [104, 105]
      (by decide)).2.1⟩

end HindiBPE
